import Mathlib

/-!
Shallow embedding of the `picrs` electrostatic particle-in-cell field solver
(`src/engine/mod.rs`, `src/field/scalar.rs`, `src/field/vector.rs`,
`src/utils/coordinate_triplet.rs`, `src/constants/mod.rs`).

Modelling conventions:
* `f64` values are embedded as exact rationals (`ℚ`).  Decimal literals in the
  source denote their exact decimal values; IEEE rounding is abstracted away.
  The solver compares the monotone square `l2_err_norm^2` against `GS_TOL^2`
  instead of `sqrt` against `GS_TOL`; for nonnegative arguments the two
  comparisons agree (this bridge is proved against a `Real.sqrt`-based
  specification of the loop).
* Grid buffers (`Vec<f64>`) become `List ℚ`.  Reads are `List.getD _ _ 0` and
  writes are `List.set`; all accesses performed by the engine on well-formed
  grids are in bounds, matching the panic-free executions of the source.
* The `while` loop of `solve_potential` is modelled with an explicit fuel
  parameter.  The source loop runs at most `GS_MAX_ITER + 1` iterations
  (it returns the non-convergence error as soon as the counter reaches
  `GS_MAX_ITER`), so the top-level entry point passes fuel
  `GS_MAX_ITER + 1` and the fuel-exhaustion branch is unreachable.
* Mutation of `&mut self` is modelled by returning the updated record; the
  `Result<(), anyhow::Error>` of `solve_potential`/`update` becomes an
  `Option GsErr` component carrying the data of the error message.
-/

namespace Picrs

/-- (F * m^-1) vacuum permittivity, `constants::VAC_PERM`. -/
def VAC_PERM : ℚ := 8.8541878188e-12

/-- (F^-1 * m) inverse vacuum permittivity, `constants::INV_VAC_PERM`. -/
def INV_VAC_PERM : ℚ := 1 / VAC_PERM

/-- sor acceleration constant, `engine::SOR_ACC`. -/
def SOR_ACC : ℚ := 1.4

/-- gauss-seidel iterations between convergence check, `engine::CONV_CHECK_ITER`. -/
def CONV_CHECK_ITER : ℕ := 25

/-- gauss-seidel max iterations, `engine::GS_MAX_ITER`. -/
def GS_MAX_ITER : ℕ := 10000

/-- gauss-seidel tolerance, `engine::GS_TOL`. -/
def GS_TOL : ℚ := 1e-5

/-- squared tolerance: the embedded loop carries the square of the l2 error norm. -/
def GS_TOL_SQ : ℚ := GS_TOL ^ 2

/-- exact value of `f64::MAX` = (2^53 - 1) * 2^971, the initial `l2_err_norm`. -/
def fMAX : ℚ := (2 ^ 53 - 1) * 2 ^ 971

/-- `CoordinateTriplet<T>` (`utils/coordinate_triplet.rs`): generic (x, y, z) data.
`CoordinateTriplet::new` is `Ok` for every input, so it is embedded as a plain
constructor. -/
structure CoordinateTriplet (α : Type) where
  x : α
  y : α
  z : α
deriving DecidableEq

/-- `ScalarField<T>` (`field/scalar.rs`) at `T = f64`: flat buffer plus shape and
row/plane offsets. -/
structure ScalarField where
  data : List ℚ
  cells : CoordinateTriplet ℕ
  r_offset : ℕ
  p_offset : ℕ
deriving DecidableEq

/-- `ScalarField::new`: offsets `r = cells.x`, `p = cells.x * cells.y`, zero-filled
buffer of length `cells.x * cells.y * cells.z`.  Always `Ok` in the source. -/
def ScalarField.new (cells : CoordinateTriplet ℕ) : ScalarField :=
  { data := List.replicate (cells.x * cells.y * cells.z) 0
    cells := cells
    r_offset := cells.x
    p_offset := cells.x * cells.y }

/-- linear index of cell (i, j, k): `i + r_offset * j + p_offset * k`
(`Index for ScalarField`). -/
def ScalarField.lin (s : ScalarField) (i j k : ℕ) : ℕ :=
  i + s.r_offset * j + s.p_offset * k

/-- read of cell (i, j, k) through the linear index. -/
def ScalarField.get (s : ScalarField) (i j k : ℕ) : ℚ :=
  s.data.getD (s.lin i j k) 0

/-- shape well-formedness: the offsets and buffer length agree with a cell-count
triplet, as established by `ScalarField::new`. -/
def ScalarField.shapedBy (s : ScalarField) (c : CoordinateTriplet ℕ) : Prop :=
  s.r_offset = c.x ∧ s.p_offset = c.x * c.y ∧ s.data.length = c.x * c.y * c.z

instance (s : ScalarField) (c : CoordinateTriplet ℕ) : Decidable (s.shapedBy c) := by
  unfold ScalarField.shapedBy; infer_instance

/-- `ScalarField += ScalarField` (`AddAssign<ScalarField<T>>`): the source zips
`self.data.iter_mut()` with `&rhs.data`, so exactly the first
`min (length self) (length rhs)` elements are updated and the rest of `self`
is untouched. -/
def ScalarField.addAssign (a b : ScalarField) : ScalarField :=
  { a with data := List.zipWith (· + ·) a.data b.data ++ a.data.drop b.data.length }

/-- `ScalarField -= ScalarField` (`SubAssign<ScalarField<T>>`). -/
def ScalarField.subAssign (a b : ScalarField) : ScalarField :=
  { a with data := List.zipWith (· - ·) a.data b.data ++ a.data.drop b.data.length }

/-- `ScalarField *= ScalarField` (`MulAssign<ScalarField<T>>`). -/
def ScalarField.mulAssign (a b : ScalarField) : ScalarField :=
  { a with data := List.zipWith (· * ·) a.data b.data ++ a.data.drop b.data.length }

/-- `ScalarField /= ScalarField` (`DivAssign<ScalarField<T>>`). -/
def ScalarField.divAssign (a b : ScalarField) : ScalarField :=
  { a with data := List.zipWith (· / ·) a.data b.data ++ a.data.drop b.data.length }

/-- `VectorField<T>` (`field/vector.rs`): three component scalar fields. -/
structure VectorField where
  cells : CoordinateTriplet ℕ
  x : ScalarField
  y : ScalarField
  z : ScalarField
deriving DecidableEq

/-- `VectorField::new`: three freshly zeroed component grids.  Always `Ok`. -/
def VectorField.new (cells : CoordinateTriplet ℕ) : VectorField :=
  { cells := cells
    x := ScalarField.new cells
    y := ScalarField.new cells
    z := ScalarField.new cells }

/-- list of lattice points of a triple product of index lists, iterated with the
first coordinate outermost and the third innermost, matching the nesting
`for i { for j { for k }}` of the source loops. -/
def prod3 (as bs cs : List ℕ) : List (ℕ × ℕ × ℕ) :=
  as.flatMap fun i => bs.flatMap fun j => cs.map fun k => (i, j, k)

/-- every cell of a (cx, cy, cz) grid in loop order (`for i in 0..cx` etc.). -/
def boxNodes (cx cy cz : ℕ) : List (ℕ × ℕ × ℕ) :=
  prod3 (List.range' 0 cx) (List.range' 0 cy) (List.range' 0 cz)

/-- the interior nodes in loop order (`for i in 1..(cx-1)` etc.; for `cx ≥ 1`
the truncated subtraction `cx - 2` equals the length of the Rust range
`1..(cx-1)`). -/
def interiorNodes (cx cy cz : ℕ) : List (ℕ × ℕ × ℕ) :=
  prod3 (List.range' 1 (cx - 2)) (List.range' 1 (cy - 2)) (List.range' 1 (cz - 2))

/-- `Electrostatic` (`engine/mod.rs`). -/
structure Electrostatic where
  size : CoordinateTriplet ℚ
  cells : CoordinateTriplet ℕ
  delta : CoordinateTriplet ℚ
  potential : ScalarField
  charge_density : ScalarField
  electric_field : VectorField
  cell_vol : ScalarField
  delta_inv_sq : CoordinateTriplet ℚ
deriving DecidableEq

/-- interior node list of an engine. -/
def Electrostatic.interiorList (e : Electrostatic) : List (ℕ × ℕ × ℕ) :=
  interiorNodes e.cells.x e.cells.y e.cells.z

/-- total cell count `cells.x * cells.y * cells.z`. -/
def Electrostatic.cellCount (e : Electrostatic) : ℕ :=
  e.cells.x * e.cells.y * e.cells.z

/-- the potential grid is shaped by the engine's cell counts (true of every
constructed engine). -/
def Electrostatic.potentialWF (e : Electrostatic) : Prop :=
  e.potential.shapedBy e.cells

instance (e : Electrostatic) : Decidable e.potentialWF := by
  unfold Electrostatic.potentialWF; infer_instance

/-- raw read of a buffer at cell (i, j, k) under offsets r, p. -/
def getL (g : List ℚ) (r p i j k : ℕ) : ℚ :=
  g.getD (i + r * j + p * k) 0

/-- linear index of a node triple under offsets r, p. -/
def lin3 (r p : ℕ) (t : ℕ × ℕ × ℕ) : ℕ :=
  t.1 + r * t.2.1 + p * t.2.2

/-- denominator `2 * (inv_dx^2 + inv_dy^2 + inv_dz^2)` of the relaxation update. -/
def gsDenom (e : Electrostatic) : ℚ :=
  2 * (e.delta_inv_sq.x + e.delta_inv_sq.y + e.delta_inv_sq.z)

/-- value written at interior node t by the gauss-seidel SOR update of
`solve_potential`: reads the neighbor potentials from the current (partially
updated) buffer `g`, forms `potential_new`, and applies
`potential += SOR_ACC * (potential_new - potential)`.  Note the source
combines the y and z neighbor terms with subtraction. -/
def gsVal (e : Electrostatic) (g : List ℚ) (t : ℕ × ℕ × ℕ) : ℚ :=
  let r := e.potential.r_offset
  let p := e.potential.p_offset
  let i := t.1
  let j := t.2.1
  let k := t.2.2
  let pn :=
    (e.charge_density.get i j k * INV_VAC_PERM
      + e.delta_inv_sq.x * (getL g r p (i + 1) j k + getL g r p (i - 1) j k)
      + e.delta_inv_sq.y * (getL g r p i (j + 1) k - getL g r p i (j - 1) k)
      + e.delta_inv_sq.z * (getL g r p i j (k + 1) - getL g r p i j (k - 1)))
    / gsDenom e
  getL g r p i j k + SOR_ACC * (pn - getL g r p i j k)

/-- potential buffer after one full in-place relaxation sweep over the interior
nodes in loop order. -/
def sweepData (e : Electrostatic) : List ℚ :=
  e.interiorList.foldl
    (fun g t => g.set (lin3 e.potential.r_offset e.potential.p_offset t) (gsVal e g t))
    e.potential.data

/-- one relaxation sweep of `solve_potential`; only the potential buffer changes. -/
def sweep (e : Electrostatic) : Electrostatic :=
  { e with potential := { e.potential with data := sweepData e } }

/-- residual `res = Ax - b` at an interior node, exactly as accumulated by the
convergence check of `solve_potential`. -/
def resid (e : Electrostatic) (t : ℕ × ℕ × ℕ) : ℚ :=
  let i := t.1
  let j := t.2.1
  let k := t.2.2
  let main := -e.potential.get i j k * 2
    * (e.delta_inv_sq.x + e.delta_inv_sq.y + e.delta_inv_sq.z)
  main
    + e.charge_density.get i j k * INV_VAC_PERM
    + e.delta_inv_sq.x * (e.potential.get (i + 1) j k + e.potential.get (i - 1) j k)
    + e.delta_inv_sq.y * (e.potential.get i (j + 1) k - e.potential.get i (j - 1) k)
    + e.delta_inv_sq.z * (e.potential.get i j (k + 1) - e.potential.get i j (k - 1))

/-- accumulated squared residual `res_acc` over the interior nodes. -/
def resAcc (e : Electrostatic) : ℚ :=
  e.interiorList.foldl (fun a t => a + resid e t * resid e t) 0

/-- square of the updated l2 error norm: the source sets
`l2_err_norm = sqrt (res_acc / (cells.x * cells.y * cells.z))`; the embedding
carries the square. -/
def resNormSq (e : Electrostatic) : ℚ :=
  resAcc e / (e.cellCount : ℚ)

/-- data of the non-convergence error message of `solve_potential`. -/
structure GsErr where
  tol : ℚ
  maxIter : ℕ
deriving DecidableEq

/-- the one error value `solve_potential` can produce. -/
def gsErr : GsErr := ⟨GS_TOL, GS_MAX_ITER⟩

/-- the `while l2_err_norm > GS_TOL` loop of `solve_potential`, carrying the
squared error norm.  Per iteration: sweep; recompute the norm if
`loop_ctr % CONV_CHECK_ITER == 0`; fail if `loop_ctr == GS_MAX_ITER`;
otherwise increment the counter and re-test the guard.  The final `ℕ` is
the number of sweeps executed (ghost instrumentation).  The fuel-0 branch is
unreachable from `solvePotential` (the error branch fires first). -/
def loopAux : ℕ → Electrostatic → ℕ → ℚ → ℕ → Electrostatic × Option GsErr × ℕ
  | 0, e, _, _, s => (e, none, s)
  | fuel + 1, e, ctr, nsq, s =>
    if nsq ≤ GS_TOL_SQ then (e, none, s)
    else
      let e' := sweep e
      let nsq' := if ctr % CONV_CHECK_ITER = 0 then resNormSq e' else nsq
      if ctr = GS_MAX_ITER then (e', some gsErr, s + 1)
      else loopAux fuel e' (ctr + 1) nsq' (s + 1)

/-- `Electrostatic::solve_potential`: loop counter starts at 0 and
`l2_err_norm` starts at `f64::MAX`. -/
def solvePotential (e : Electrostatic) : Electrostatic × Option GsErr × ℕ :=
  loopAux (GS_MAX_ITER + 1) e 0 (fMAX ^ 2) 0

/-- x-component stencil of `solve_electric_field` at cell t: central difference
on interior indices, one-sided 2nd-order differences on the two edges. -/
def efX (e : Electrostatic) (t : ℕ × ℕ × ℕ) : ℚ :=
  let n2dx : ℚ := -1 / (2 * e.delta.x)
  let i := t.1
  let j := t.2.1
  let k := t.2.2
  if i ≠ 0 ∧ i ≠ e.cells.x - 1 then
    n2dx * (e.potential.get (i + 1) j k - e.potential.get (i - 1) j k)
  else if i = 0 then
    n2dx * (-3 * e.potential.get i j k + 4 * e.potential.get (i + 1) j k
      - e.potential.get (i + 2) j k)
  else
    n2dx * (e.potential.get (i - 2) j k - 4 * e.potential.get (i - 1) j k
      + 3 * e.potential.get i j k)

/-- y-component stencil of `solve_electric_field` at cell t. -/
def efY (e : Electrostatic) (t : ℕ × ℕ × ℕ) : ℚ :=
  let n2dy : ℚ := -1 / (2 * e.delta.y)
  let i := t.1
  let j := t.2.1
  let k := t.2.2
  if j ≠ 0 ∧ j ≠ e.cells.y - 1 then
    n2dy * (e.potential.get i (j + 1) k - e.potential.get i (j - 1) k)
  else if j = 0 then
    n2dy * (-3 * e.potential.get i j k + 4 * e.potential.get i (j + 1) k
      - e.potential.get i (j + 2) k)
  else
    n2dy * (e.potential.get i (j - 2) k - 4 * e.potential.get i (j - 1) k
      + 3 * e.potential.get i j k)

/-- z-component stencil of `solve_electric_field` at cell t. -/
def efZ (e : Electrostatic) (t : ℕ × ℕ × ℕ) : ℚ :=
  let n2dz : ℚ := -1 / (2 * e.delta.z)
  let i := t.1
  let j := t.2.1
  let k := t.2.2
  if k ≠ 0 ∧ k ≠ e.cells.z - 1 then
    n2dz * (e.potential.get i j (k + 1) - e.potential.get i j (k - 1))
  else if k = 0 then
    n2dz * (-3 * e.potential.get i j k + 4 * e.potential.get i j (k + 1)
      - e.potential.get i j (k + 2))
  else
    n2dz * (e.potential.get i j (k - 2) - 4 * e.potential.get i j (k - 1)
      + 3 * e.potential.get i j k)

/-- `Electrostatic::solve_electric_field`: for every grid cell, overwrite the
three electric-field component grids with the per-axis stencils of the
potential.  Always `Ok` in the source. -/
def efWrite (e : Electrostatic) (v : VectorField) (t : ℕ × ℕ × ℕ) : VectorField :=
  { v with
    x := { v.x with data := v.x.data.set (lin3 v.x.r_offset v.x.p_offset t) (efX e t) },
    y := { v.y with data := v.y.data.set (lin3 v.y.r_offset v.y.p_offset t) (efY e t) },
    z := { v.z with data := v.z.data.set (lin3 v.z.r_offset v.z.p_offset t) (efZ e t) } }

/-- body of `solve_electric_field`: fold the per-cell writes over the whole box. -/
def solveElectricField (e : Electrostatic) : Electrostatic :=
  { e with electric_field :=
      (boxNodes e.cells.x e.cells.y e.cells.z).foldl (efWrite e) e.electric_field }

/-- `Electrostatic::update`: `solve_potential` then, only on success,
`solve_electric_field`. -/
def update (e : Electrostatic) : Electrostatic × Option GsErr :=
  match solvePotential e with
  | (e', some err, _) => (e', some err)
  | (e', none, _) => (solveElectricField e', none)

/-- `Electrostatic::new`.  `CoordinateTriplet::new`, `ScalarField::new` and
`VectorField::new` are unconditionally `Ok`, so the inner `Except` is always
`.ok`.  The outer `Option` is `none` exactly when a cell count is zero, where
the source's `(cells.c - 1) as f64` underflows `usize` (a debug-build panic,
not an `Err`).  For a cell count of one the source divides by `0.0`
(producing an IEEE infinity); the embedding's `ℚ` division by zero yields 0,
which does not affect the `Ok`-ness being modelled. -/
def elecNew (size : ℚ × ℚ × ℚ) (cells : ℕ × ℕ × ℕ) : Option (Except Unit Electrostatic) :=
  if cells.1 = 0 ∨ cells.2.1 = 0 ∨ cells.2.2 = 0 then none
  else
    let cellsT : CoordinateTriplet ℕ := ⟨cells.1, cells.2.1, cells.2.2⟩
    let sizeT : CoordinateTriplet ℚ := ⟨size.1, size.2.1, size.2.2⟩
    let dx := sizeT.x / ((cells.1 - 1 : ℕ) : ℚ)
    let dy := sizeT.y / ((cells.2.1 - 1 : ℕ) : ℚ)
    let dz := sizeT.z / ((cells.2.2 - 1 : ℕ) : ℚ)
    some (.ok
      { size := sizeT
        cells := cellsT
        delta := ⟨dx, dy, dz⟩
        potential := ScalarField.new cellsT
        charge_density := ScalarField.new cellsT
        electric_field := VectorField.new cellsT
        cell_vol := ScalarField.new cellsT
        delta_inv_sq := ⟨1 / (dx * dx), 1 / (dy * dy), 1 / (dz * dz)⟩ })

/-- lines of `Display for VectorField`, one per cell in loop order.  The source
reads the x and y components at `(i, j, k)` but the z component at
`(i, k, j)`. -/
def VectorField.displayLines (v : VectorField) : List String :=
  (boxNodes v.cells.x v.cells.y v.cells.z).map fun t =>
    let i := t.1
    let j := t.2.1
    let k := t.2.2
    let a := v.x.get i j k
    let b := v.y.get i j k
    let c := v.z.get i k j
    s!"VectorField({i}, {j}, {k}) = [{a}, {b}, {c}]"

/-! ### Generic buffer lemmas -/

/-- reading a zero-filled buffer gives 0 (also out of bounds, where the default is 0). -/
theorem getD_zero {l : List ℚ} (h : ∀ x ∈ l, x = 0) (n : ℕ) : l.getD n 0 = 0 := by
  rw [List.getD_eq_getElem?_getD]
  cases hg : l[n]? with
  | none => rfl
  | some a => exact h a (List.getElem?_mem hg)

/-- writing at one index does not change reads at another index. -/
theorem getD_set_ne {l : List ℚ} {q q' : ℕ} (a : ℚ) (h : q ≠ q') :
    (l.set q a).getD q' 0 = l.getD q' 0 := by
  rw [List.getD_eq_getElem?_getD, List.getD_eq_getElem?_getD, List.getElem?_set_ne h]

/-- an in-bounds write is read back. -/
theorem getD_set_self {l : List ℚ} {q : ℕ} (a : ℚ) (h : q < l.length) :
    (l.set q a).getD q 0 = a := by
  rw [List.getD_eq_getElem?_getD, List.getElem?_set_self h]; rfl

/-- writing the value 0 into an all-zero buffer leaves it unchanged. -/
theorem set_zero_of_all_zero {l : List ℚ} (h : ∀ x ∈ l, x = 0) (q : ℕ) :
    l.set q 0 = l := by
  induction l generalizing q with
  | nil => rfl
  | cons hd tl ih =>
    cases q with
    | zero => simp [List.set, h hd (by simp)]
    | succ q' =>
      simp only [List.set]
      rw [ih (fun x hx => h x (by simp [hx])) q']

/-- a fold of point writes preserves the buffer length. -/
theorem foldl_set_length (pos : ℕ × ℕ × ℕ → ℕ) (val : List ℚ → ℕ × ℕ × ℕ → ℚ)
    (L : List (ℕ × ℕ × ℕ)) (g : List ℚ) :
    (L.foldl (fun g t => g.set (pos t) (val g t)) g).length = g.length := by
  induction L generalizing g with
  | nil => rfl
  | cons hd tl ih => rw [List.foldl_cons, ih, List.length_set]

/-- a fold of point writes leaves every position it never writes unchanged. -/
theorem foldl_set_getD_not_written (pos : ℕ × ℕ × ℕ → ℕ) (val : List ℚ → ℕ × ℕ × ℕ → ℚ)
    (L : List (ℕ × ℕ × ℕ)) (g : List ℚ) {q : ℕ} (h : ∀ t ∈ L, pos t ≠ q) :
    (L.foldl (fun g t => g.set (pos t) (val g t)) g).getD q 0 = g.getD q 0 := by
  induction L generalizing g with
  | nil => rfl
  | cons hd tl ih =>
    rw [List.foldl_cons, ih _ (fun t ht => h t (by simp [ht])),
      getD_set_ne _ (h hd (by simp))]

/-! ### Linear index arithmetic -/

/-- a node lies in the (cx, cy, cz) index box. -/
def inBox (cx cy cz : ℕ) (t : ℕ × ℕ × ℕ) : Prop :=
  t.1 < cx ∧ t.2.1 < cy ∧ t.2.2 < cz

/-- the linear index of an in-box node is within the buffer length `cx * cy * cz`. -/
theorem lin3_lt {cx cy cz : ℕ} {t : ℕ × ℕ × ℕ} (h : inBox cx cy cz t) :
    lin3 cx (cx * cy) t < cx * cy * cz := by
  obtain ⟨h1, h2, h3⟩ := h
  have e1 : lin3 cx (cx * cy) t = t.1 + cx * (t.2.1 + cy * t.2.2) := by
    simp [lin3]; ring
  have hle : t.2.1 + cy * t.2.2 + 1 ≤ cy * cz := by
    have : t.2.1 + 1 ≤ cy := h2
    calc t.2.1 + cy * t.2.2 + 1 = (t.2.1 + 1) + cy * t.2.2 := by ring
      _ ≤ cy + cy * t.2.2 := by omega
      _ = cy * (t.2.2 + 1) := by ring
      _ ≤ cy * cz := Nat.mul_le_mul_left cy h3
  calc lin3 cx (cx * cy) t = t.1 + cx * (t.2.1 + cy * t.2.2) := e1
    _ < cx * (t.2.1 + cy * t.2.2 + 1) := by rw [Nat.mul_succ]; omega
    _ ≤ cx * (cy * cz) := Nat.mul_le_mul_left cx hle
    _ = cx * cy * cz := by ring

/-- mixed-radix decoding: the linear index determines the coordinates inside the box. -/
theorem lin3_inj {cx cy cz : ℕ} {t u : ℕ × ℕ × ℕ}
    (ht : inBox cx cy cz t) (hu : inBox cx cy cz u) (hne : t ≠ u) :
    lin3 cx (cx * cy) t ≠ lin3 cx (cx * cy) u := by
  intro heq
  obtain ⟨ht1, ht2, ht3⟩ := ht
  obtain ⟨hu1, hu2, hu3⟩ := hu
  have e1 : t.1 + cx * (t.2.1 + cy * t.2.2) = u.1 + cx * (u.2.1 + cy * u.2.2) := by
    simpa [lin3, Nat.mul_add, Nat.mul_assoc, Nat.add_assoc] using heq
  have hcx : 0 < cx := lt_of_le_of_lt (Nat.zero_le _) ht1
  have hmod : t.1 = u.1 := by
    have h1 := congrArg (· % cx) e1
    simpa [Nat.add_mul_mod_self_left, Nat.mod_eq_of_lt ht1, Nat.mod_eq_of_lt hu1] using h1
  have hdivd : t.2.1 + cy * t.2.2 = u.2.1 + cy * u.2.2 := by
    have h1 := congrArg (· / cx) e1
    simpa [Nat.add_mul_div_left _ _ hcx, Nat.div_eq_of_lt ht1, Nat.div_eq_of_lt hu1] using h1
  have hcy : 0 < cy := Nat.pos_of_ne_zero (by rintro rfl; omega)
  have hmod2 : t.2.1 = u.2.1 := by
    have h1 := congrArg (· % cy) hdivd
    simpa [Nat.add_mul_mod_self_left, Nat.mod_eq_of_lt ht2, Nat.mod_eq_of_lt hu2] using h1
  have hdiv2 : t.2.2 = u.2.2 := by
    have h1 := congrArg (· / cy) hdivd
    simpa [Nat.add_mul_div_left _ _ hcy, Nat.div_eq_of_lt ht2, Nat.div_eq_of_lt hu2] using h1
  exact hne (Prod.ext hmod (Prod.ext hmod2 hdiv2))

/-! ### Lexicographic order on nodes (the sweep's processing order) -/

/-- strict lexicographic order on node triples, with the first coordinate most
significant: exactly the processing order of the nested loops. -/
def lexLt (t u : ℕ × ℕ × ℕ) : Prop :=
  t.1 < u.1 ∨ (t.1 = u.1 ∧ (t.2.1 < u.2.1 ∨ (t.2.1 = u.2.1 ∧ t.2.2 < u.2.2)))

theorem lexLt_ne {t u : ℕ × ℕ × ℕ} (h : lexLt t u) : t ≠ u := by
  rintro rfl
  rcases h with h | ⟨-, h | ⟨-, h⟩⟩ <;> omega

theorem lexLt_trans {t u w : ℕ × ℕ × ℕ} (h1 : lexLt t u) (h2 : lexLt u w) : lexLt t w := by
  unfold lexLt at *
  omega

/-! ### Membership and splitting of node lists -/

theorem mem_prod3 {as bs cs : List ℕ} {u : ℕ × ℕ × ℕ} :
    u ∈ prod3 as bs cs ↔ u.1 ∈ as ∧ u.2.1 ∈ bs ∧ u.2.2 ∈ cs := by
  obtain ⟨i, j, k⟩ := u
  simp only [prod3, List.mem_flatMap, List.mem_map]
  constructor
  · rintro ⟨a, ha, b, hb, c, hc, h⟩
    cases h
    exact ⟨ha, hb, hc⟩
  · rintro ⟨ha, hb, hc⟩
    exact ⟨i, ha, j, hb, k, hc, rfl⟩

/-- splitting a `range'` interval at an interior point. -/
theorem range'_split {s n m : ℕ} (h1 : s ≤ m) (h2 : m < s + n) :
    List.range' s n = List.range' s (m - s) ++ m :: List.range' (m + 1) (s + n - m - 1) := by
  have h := List.range'_append s (m - s) (s + n - m) 1
  simp only [one_mul] at h
  rw [show s + (m - s) = m by omega] at h
  rw [show (s + n - m) + (m - s) = n by omega] at h
  rw [← h]
  congr 1
  conv_lhs => rw [show s + n - m = (s + n - m - 1) + 1 by omega]
  rw [List.range'_succ]

/-- introduction form of `lexLt` on literal triples. -/
theorem lexLt_mk {a b c d e f : ℕ}
    (h : a < d ∨ (a = d ∧ (b < e ∨ (b = e ∧ c < f)))) : lexLt (a, b, c) (d, e, f) := h

/-- membership form of `mem_prod3` for `range'` factors, in coordinate bounds. -/
theorem mem_prod3_range' {sx nx sy ny sz nz : ℕ} {u : ℕ × ℕ × ℕ}
    (h1 : sx ≤ u.1 ∧ u.1 < sx + nx) (h2 : sy ≤ u.2.1 ∧ u.2.1 < sy + ny)
    (h3 : sz ≤ u.2.2 ∧ u.2.2 < sz + nz) :
    u ∈ prod3 (List.range' sx nx) (List.range' sy ny) (List.range' sz nz) :=
  mem_prod3.2 ⟨List.mem_range'_1.2 h1, List.mem_range'_1.2 h2, List.mem_range'_1.2 h3⟩

/-- literal-triple form of `mem_prod3_range'`. -/
theorem mem_prod3_range'_mk {sx nx sy ny sz nz a b c : ℕ}
    (h1 : sx ≤ a ∧ a < sx + nx) (h2 : sy ≤ b ∧ b < sy + ny)
    (h3 : sz ≤ c ∧ c < sz + nz) :
    (a, b, c) ∈ prod3 (List.range' sx nx) (List.range' sy ny) (List.range' sz nz) :=
  mem_prod3_range' h1 h2 h3

/-- splitting a triple-product node list at one of its nodes: everything before
it is lexicographically smaller, everything after it larger, and all of it
stays inside the product. -/
theorem prod3_range'_split {sx nx sy ny sz nz i j k : ℕ}
    (hi1 : sx ≤ i) (hi2 : i < sx + nx) (hj1 : sy ≤ j) (hj2 : j < sy + ny)
    (hk1 : sz ≤ k) (hk2 : k < sz + nz) :
    ∃ A B, prod3 (List.range' sx nx) (List.range' sy ny) (List.range' sz nz)
        = A ++ (i, j, k) :: B
      ∧ (∀ u ∈ A, u ∈ prod3 (List.range' sx nx) (List.range' sy ny) (List.range' sz nz)
          ∧ lexLt u (i, j, k))
      ∧ (∀ u ∈ B, u ∈ prod3 (List.range' sx nx) (List.range' sy ny) (List.range' sz nz)
          ∧ lexLt (i, j, k) u) := by
  have hxs := range'_split hi1 hi2
  have hys := range'_split hj1 hj2
  have hzs := range'_split hk1 hk2
  have eRow : (List.range' sz nz).map (fun c => (i, j, c))
      = (List.range' sz (k - sz)).map (fun c => (i, j, c))
        ++ ((i, j, k) :: (List.range' (k + 1) (sz + nz - k - 1)).map (fun c => (i, j, c))) := by
    conv_lhs => rw [hzs]
    rw [List.map_append, List.map_cons]
  have eMid : (List.range' sy ny).flatMap (fun b => (List.range' sz nz).map fun c => (i, b, c))
      = (List.range' sy (j - sy)).flatMap (fun b => (List.range' sz nz).map fun c => (i, b, c))
        ++ ((List.range' sz (k - sz)).map (fun c => (i, j, c))
          ++ ((i, j, k) :: ((List.range' (k + 1) (sz + nz - k - 1)).map (fun c => (i, j, c))
            ++ (List.range' (j + 1) (sy + ny - j - 1)).flatMap
                (fun b => (List.range' sz nz).map fun c => (i, b, c))))) := by
    conv_lhs => rw [hys]
    rw [List.flatMap_append, List.flatMap_cons]
    rw [eRow]
    simp only [List.append_assoc, List.cons_append]
  refine ⟨prod3 (List.range' sx (i - sx)) (List.range' sy ny) (List.range' sz nz)
        ++ ((List.range' sy (j - sy)).flatMap (fun b =>
              (List.range' sz nz).map fun c => (i, b, c))
          ++ (List.range' sz (k - sz)).map (fun c => (i, j, c))),
      (List.range' (k + 1) (sz + nz - k - 1)).map (fun c => (i, j, c))
        ++ ((List.range' (j + 1) (sy + ny - j - 1)).flatMap (fun b =>
              (List.range' sz nz).map fun c => (i, b, c))
          ++ prod3 (List.range' (i + 1) (sx + nx - i - 1)) (List.range' sy ny)
              (List.range' sz nz)),
      ?_, ?_, ?_⟩
  · simp only [prod3]
    conv_lhs => rw [hxs]
    rw [List.flatMap_append, List.flatMap_cons]
    rw [eMid]
    simp only [List.append_assoc, List.cons_append]
  · intro u hu
    simp only [List.mem_append] at hu
    rcases hu with hu | hu | hu
    · obtain ⟨u1, u2, u3⟩ := u
      obtain ⟨h1, h2, h3⟩ := mem_prod3.1 hu
      rw [List.mem_range'_1] at h1 h2 h3
      have b1 : sx ≤ u1 ∧ u1 < sx + (i - sx) := h1
      have b2 : sy ≤ u2 ∧ u2 < sy + ny := h2
      have b3 : sz ≤ u3 ∧ u3 < sz + nz := h3
      exact ⟨mem_prod3_range'_mk (by omega) (by omega) (by omega), lexLt_mk (by omega)⟩
    · obtain ⟨b, hb, c, hc, hcu⟩ := by
        simpa only [List.mem_flatMap, List.mem_map] using hu
      rw [List.mem_range'_1] at hb
      rw [List.mem_range'_1] at hc
      subst hcu
      exact ⟨mem_prod3_range'_mk (by omega) (by omega) (by omega), lexLt_mk (by omega)⟩
    · obtain ⟨c, hc, hcu⟩ := by simpa only [List.mem_map] using hu
      rw [List.mem_range'_1] at hc
      subst hcu
      exact ⟨mem_prod3_range'_mk (by omega) (by omega) (by omega), lexLt_mk (by omega)⟩
  · intro u hu
    simp only [List.mem_append] at hu
    rcases hu with hu | hu | hu
    · obtain ⟨c, hc, hcu⟩ := by simpa only [List.mem_map] using hu
      rw [List.mem_range'_1] at hc
      subst hcu
      exact ⟨mem_prod3_range'_mk (by omega) (by omega) (by omega), lexLt_mk (by omega)⟩
    · obtain ⟨b, hb, c, hc, hcu⟩ := by
        simpa only [List.mem_flatMap, List.mem_map] using hu
      rw [List.mem_range'_1] at hb
      rw [List.mem_range'_1] at hc
      subst hcu
      exact ⟨mem_prod3_range'_mk (by omega) (by omega) (by omega), lexLt_mk (by omega)⟩
    · obtain ⟨u1, u2, u3⟩ := u
      obtain ⟨h1, h2, h3⟩ := mem_prod3.1 hu
      rw [List.mem_range'_1] at h1 h2 h3
      have b1 : i + 1 ≤ u1 ∧ u1 < i + 1 + (sx + nx - i - 1) := h1
      have b2 : sy ≤ u2 ∧ u2 < sy + ny := h2
      have b3 : sz ≤ u3 ∧ u3 < sz + nz := h3
      exact ⟨mem_prod3_range'_mk (by omega) (by omega) (by omega), lexLt_mk (by omega)⟩

/-! ### Specializations to interior and box node lists -/

/-- literal-triple introduction for `inBox`. -/
theorem inBox_mk {cx cy cz a b c : ℕ} (h1 : a < cx) (h2 : b < cy) (h3 : c < cz) :
    inBox cx cy cz (a, b, c) := ⟨h1, h2, h3⟩

/-- coordinate bounds of interior nodes. -/
theorem mem_interiorNodes {cx cy cz : ℕ} {u : ℕ × ℕ × ℕ} (h : u ∈ interiorNodes cx cy cz) :
    (1 ≤ u.1 ∧ u.1 < cx - 1) ∧ (1 ≤ u.2.1 ∧ u.2.1 < cy - 1) ∧ (1 ≤ u.2.2 ∧ u.2.2 < cz - 1) := by
  obtain ⟨h1, h2, h3⟩ := mem_prod3.1 h
  rw [List.mem_range'_1] at h1 h2 h3
  omega

/-- interior nodes are in the box. -/
theorem mem_interiorNodes_inBox {cx cy cz : ℕ} {u : ℕ × ℕ × ℕ}
    (h : u ∈ interiorNodes cx cy cz) : inBox cx cy cz u := by
  have := mem_interiorNodes h
  exact ⟨by omega, by omega, by omega⟩

/-- splitting the interior node list at an interior node. -/
theorem interiorNodes_split {cx cy cz i j k : ℕ}
    (hi1 : 1 ≤ i) (hi2 : i < cx - 1) (hj1 : 1 ≤ j) (hj2 : j < cy - 1)
    (hk1 : 1 ≤ k) (hk2 : k < cz - 1) :
    ∃ A B, interiorNodes cx cy cz = A ++ (i, j, k) :: B
      ∧ (∀ u ∈ A, u ∈ interiorNodes cx cy cz ∧ lexLt u (i, j, k))
      ∧ (∀ u ∈ B, u ∈ interiorNodes cx cy cz ∧ lexLt (i, j, k) u) := by
  have h := @prod3_range'_split 1 (cx - 2) 1 (cy - 2) 1 (cz - 2) i j k
    hi1 (by omega) hj1 (by omega) hk1 (by omega)
  exact h

/-- coordinate bounds of box nodes. -/
theorem mem_boxNodes {cx cy cz : ℕ} {u : ℕ × ℕ × ℕ} (h : u ∈ boxNodes cx cy cz) :
    inBox cx cy cz u := by
  obtain ⟨h1, h2, h3⟩ := mem_prod3.1 h
  rw [List.mem_range'_1] at h1 h2 h3
  exact ⟨by omega, by omega, by omega⟩

/-- splitting the box node list at a box node. -/
theorem boxNodes_split {cx cy cz i j k : ℕ}
    (hi : i < cx) (hj : j < cy) (hk : k < cz) :
    ∃ A B, boxNodes cx cy cz = A ++ (i, j, k) :: B
      ∧ (∀ u ∈ A, u ∈ boxNodes cx cy cz ∧ lexLt u (i, j, k))
      ∧ (∀ u ∈ B, u ∈ boxNodes cx cy cz ∧ lexLt (i, j, k) u) := by
  have h := @prod3_range'_split 0 cx 0 cy 0 cz i j k
    (by omega) (by omega) (by omega) (by omega) (by omega) (by omega)
  exact h

/-- value at the split node of a fold of point writes: the writes after it land
elsewhere, so the value is the one computed from the state after the prefix. -/
theorem foldl_set_split_getD (pos : ℕ × ℕ × ℕ → ℕ) (val : List ℚ → ℕ × ℕ × ℕ → ℚ)
    {L A B : List (ℕ × ℕ × ℕ)} {t : ℕ × ℕ × ℕ}
    (hsplit : L = A ++ t :: B)
    (hBne : ∀ u ∈ B, pos u ≠ pos t)
    (g : List ℚ) (hq : pos t < g.length) :
    (L.foldl (fun g u => g.set (pos u) (val g u)) g).getD (pos t) 0
      = val (A.foldl (fun g u => g.set (pos u) (val g u)) g) t := by
  rw [hsplit, List.foldl_append, List.foldl_cons]
  rw [foldl_set_getD_not_written pos val B _ hBne]
  refine getD_set_self _ ?_
  rw [foldl_set_length]
  exact hq

/-! ### Pointwise characterization of one relaxation sweep -/

/-- after one sweep, the value at an interior node is the SOR update computed
from the pre-sweep values of the node itself and its +1 neighbors and the
post-sweep values of its −1 neighbors: exactly the in-place, ascending
lexicographic gauss-seidel recurrence. -/
theorem sweep_get_interior (e : Electrostatic) (hWF : e.potentialWF)
    {i j k : ℕ}
    (hi1 : 1 ≤ i) (hi2 : i < e.cells.x - 1)
    (hj1 : 1 ≤ j) (hj2 : j < e.cells.y - 1)
    (hk1 : 1 ≤ k) (hk2 : k < e.cells.z - 1) :
    (sweep e).potential.get i j k =
      e.potential.get i j k + SOR_ACC *
        ((e.charge_density.get i j k * INV_VAC_PERM
          + e.delta_inv_sq.x * (e.potential.get (i + 1) j k + (sweep e).potential.get (i - 1) j k)
          + e.delta_inv_sq.y * (e.potential.get i (j + 1) k - (sweep e).potential.get i (j - 1) k)
          + e.delta_inv_sq.z * (e.potential.get i j (k + 1) - (sweep e).potential.get i j (k - 1)))
          / gsDenom e
         - e.potential.get i j k) := by
  obtain ⟨hr, hp, hlen⟩ := hWF
  obtain ⟨A, B, hsplit, hA, hB⟩ :=
    @interiorNodes_split e.cells.x e.cells.y e.cells.z i j k hi1 hi2 hj1 hj2 hk1 hk2
  set r := e.potential.r_offset with hrdef
  set p := e.potential.p_offset with hpdef
  have hpos : ∀ u : ℕ × ℕ × ℕ, lin3 r p u = lin3 e.cells.x (e.cells.x * e.cells.y) u := by
    intro u; rw [hr, hp]
  have hbox_t : inBox e.cells.x e.cells.y e.cells.z (i, j, k) :=
    inBox_mk (by omega) (by omega) (by omega)
  have hBne : ∀ u ∈ B, lin3 r p u ≠ lin3 r p (i, j, k) := by
    intro u hu
    rw [hpos u, hpos (i, j, k)]
    exact lin3_inj (mem_interiorNodes_inBox (hB u hu).1) hbox_t (Ne.symm (lexLt_ne (hB u hu).2))
  have hq : lin3 r p (i, j, k) < e.potential.data.length := by
    rw [hpos, hlen]; exact lin3_lt hbox_t
  have hmain : (sweepData e).getD (lin3 r p (i, j, k)) 0
      = gsVal e (A.foldl (fun g u => g.set (lin3 r p u) (gsVal e g u)) e.potential.data)
          (i, j, k) :=
    foldl_set_split_getD (fun u => lin3 r p u) (gsVal e) hsplit hBne e.potential.data hq
  set gA := A.foldl (fun g u => g.set (lin3 r p u) (gsVal e g u)) e.potential.data with hgAdef
  have hApre : ∀ w : ℕ × ℕ × ℕ, inBox e.cells.x e.cells.y e.cells.z w →
      (lexLt (i, j, k) w ∨ w = (i, j, k)) →
      gA.getD (lin3 r p w) 0 = e.potential.data.getD (lin3 r p w) 0 := by
    intro w hbw hw
    refine foldl_set_getD_not_written _ _ A _ ?_
    intro u hu
    rw [hpos u, hpos w]
    refine lin3_inj (mem_interiorNodes_inBox (hA u hu).1) hbw ?_
    rcases hw with hw | rfl
    · exact lexLt_ne (lexLt_trans (hA u hu).2 hw)
    · exact lexLt_ne (hA u hu).2
  have hpost : ∀ w : ℕ × ℕ × ℕ, inBox e.cells.x e.cells.y e.cells.z w → lexLt w (i, j, k) →
      (sweepData e).getD (lin3 r p w) 0 = gA.getD (lin3 r p w) 0 := by
    intro w hbw hw
    have h1 : sweepData e
        = (((i, j, k) :: B).foldl (fun g u => g.set (lin3 r p u) (gsVal e g u)) gA) := by
      show e.interiorList.foldl _ _ = _
      rw [Electrostatic.interiorList]
      rw [show interiorNodes e.cells.x e.cells.y e.cells.z = A ++ (i, j, k) :: B from hsplit]
      rw [List.foldl_append]
    rw [h1]
    refine foldl_set_getD_not_written _ _ _ _ ?_
    intro u hu
    rcases List.mem_cons.1 hu with rfl | hu
    · rw [hpos (i, j, k), hpos w]
      exact lin3_inj hbox_t hbw (Ne.symm (lexLt_ne hw))
    · rw [hpos u, hpos w]
      exact lin3_inj (mem_interiorNodes_inBox (hB u hu).1) hbw
        (Ne.symm (lexLt_ne (lexLt_trans hw (hB u hu).2)))
  have e_center : getL gA r p i j k = e.potential.get i j k :=
    hApre (i, j, k) hbox_t (Or.inr rfl)
  have e_xp : getL gA r p (i + 1) j k = e.potential.get (i + 1) j k :=
    hApre (i + 1, j, k) (inBox_mk (by omega) (by omega) (by omega))
      (Or.inl (lexLt_mk (by omega)))
  have e_yp : getL gA r p i (j + 1) k = e.potential.get i (j + 1) k :=
    hApre (i, j + 1, k) (inBox_mk (by omega) (by omega) (by omega))
      (Or.inl (lexLt_mk (by omega)))
  have e_zp : getL gA r p i j (k + 1) = e.potential.get i j (k + 1) :=
    hApre (i, j, k + 1) (inBox_mk (by omega) (by omega) (by omega))
      (Or.inl (lexLt_mk (by omega)))
  have e_xm : getL gA r p (i - 1) j k = (sweep e).potential.get (i - 1) j k :=
    (hpost (i - 1, j, k) (inBox_mk (by omega) (by omega) (by omega))
      (lexLt_mk (by omega))).symm
  have e_ym : getL gA r p i (j - 1) k = (sweep e).potential.get i (j - 1) k :=
    (hpost (i, j - 1, k) (inBox_mk (by omega) (by omega) (by omega))
      (lexLt_mk (by omega))).symm
  have e_zm : getL gA r p i j (k - 1) = (sweep e).potential.get i j (k - 1) :=
    (hpost (i, j, k - 1) (inBox_mk (by omega) (by omega) (by omega))
      (lexLt_mk (by omega))).symm
  have hgoal : (sweep e).potential.get i j k = gsVal e gA (i, j, k) := hmain
  rw [hgoal]
  simp only [gsVal]
  rw [e_center, e_xp, e_yp, e_zp, e_xm, e_ym, e_zm]

/-! ### Frame properties of the solver -/

/-- two engine states that differ at most in the contents of the potential
buffer (same length). -/
def sameFrame (a b : Electrostatic) : Prop :=
  a.size = b.size ∧ a.cells = b.cells ∧ a.delta = b.delta
    ∧ a.charge_density = b.charge_density ∧ a.electric_field = b.electric_field
    ∧ a.cell_vol = b.cell_vol ∧ a.delta_inv_sq = b.delta_inv_sq
    ∧ a.potential.cells = b.potential.cells
    ∧ a.potential.r_offset = b.potential.r_offset
    ∧ a.potential.p_offset = b.potential.p_offset
    ∧ a.potential.data.length = b.potential.data.length

theorem sameFrame_refl (a : Electrostatic) : sameFrame a a :=
  ⟨rfl, rfl, rfl, rfl, rfl, rfl, rfl, rfl, rfl, rfl, rfl⟩

theorem sameFrame_trans {a b c : Electrostatic} (h1 : sameFrame a b) (h2 : sameFrame b c) :
    sameFrame a c := by
  obtain ⟨a1, a2, a3, a4, a5, a6, a7, a8, a9, a10, a11⟩ := h1
  obtain ⟨b1, b2, b3, b4, b5, b6, b7, b8, b9, b10, b11⟩ := h2
  exact ⟨a1.trans b1, a2.trans b2, a3.trans b3, a4.trans b4, a5.trans b5, a6.trans b6,
    a7.trans b7, a8.trans b8, a9.trans b9, a10.trans b10, a11.trans b11⟩

/-- a sweep only rewrites potential buffer contents. -/
theorem sweep_sameFrame (e : Electrostatic) : sameFrame (sweep e) e := by
  refine ⟨rfl, rfl, rfl, rfl, rfl, rfl, rfl, rfl, rfl, rfl, ?_⟩
  show (sweepData e).length = e.potential.data.length
  exact foldl_set_length _ _ _ _

/-- a sweep preserves potential well-formedness. -/
theorem sweep_WF {e : Electrostatic} (h : e.potentialWF) : (sweep e).potentialWF := by
  obtain ⟨h1, h2, h3⟩ := h
  have hl : (sweepData e).length = e.potential.data.length := foldl_set_length _ _ _ _
  exact ⟨h1, h2, hl.trans h3⟩

/-- a sweep never changes any boundary cell of the potential grid. -/
theorem sweep_boundary_get {e : Electrostatic} (hWF : e.potentialWF) {i j k : ℕ}
    (hin : inBox e.cells.x e.cells.y e.cells.z (i, j, k))
    (hb : i = 0 ∨ i = e.cells.x - 1 ∨ j = 0 ∨ j = e.cells.y - 1
      ∨ k = 0 ∨ k = e.cells.z - 1) :
    (sweep e).potential.get i j k = e.potential.get i j k := by
  obtain ⟨hr, hp, hlen⟩ := hWF
  show (sweepData e).getD (lin3 e.potential.r_offset e.potential.p_offset (i, j, k)) 0
    = e.potential.data.getD (lin3 e.potential.r_offset e.potential.p_offset (i, j, k)) 0
  refine foldl_set_getD_not_written _ _ _ _ ?_
  intro u hu
  obtain ⟨u1, u2, u3⟩ := u
  have hm : (1 ≤ u1 ∧ u1 < e.cells.x - 1) ∧ (1 ≤ u2 ∧ u2 < e.cells.y - 1)
      ∧ (1 ≤ u3 ∧ u3 < e.cells.z - 1) := mem_interiorNodes hu
  rw [hr, hp]
  refine lin3_inj (mem_interiorNodes_inBox hu) hin ?_
  intro heq
  rw [Prod.mk.injEq, Prod.mk.injEq] at heq
  omega

/-- unfolding equation of one loop iteration. -/
theorem loopAux_succ (fuel : ℕ) (e : Electrostatic) (ctr : ℕ) (nsq : ℚ) (s : ℕ) :
    loopAux (fuel + 1) e ctr nsq s =
      if nsq ≤ GS_TOL_SQ then (e, none, s)
      else
        if ctr = GS_MAX_ITER then (sweep e, some gsErr, s + 1)
        else loopAux fuel (sweep e) (ctr + 1)
          (if ctr % CONV_CHECK_ITER = 0 then resNormSq (sweep e) else nsq) (s + 1) := rfl

/-- the result engine of the relaxation loop differs from the input only in
the contents of the potential buffer. -/
theorem loopAux_sameFrame : ∀ (fuel : ℕ) (e : Electrostatic) (ctr : ℕ) (nsq : ℚ) (s : ℕ),
    sameFrame (loopAux fuel e ctr nsq s).1 e := by
  intro fuel
  induction fuel with
  | zero => intro e ctr nsq s; exact sameFrame_refl e
  | succ fuel ih =>
    intro e ctr nsq s
    rw [loopAux_succ]
    split
    · exact sameFrame_refl e
    · split
      · exact sweep_sameFrame e
      · exact sameFrame_trans (ih (sweep e) (ctr + 1) _ (s + 1)) (sweep_sameFrame e)

/-- the relaxation loop preserves potential well-formedness. -/
theorem loopAux_WF : ∀ (fuel : ℕ) (e : Electrostatic) (ctr : ℕ) (nsq : ℚ) (s : ℕ),
    e.potentialWF → (loopAux fuel e ctr nsq s).1.potentialWF := by
  intro fuel
  induction fuel with
  | zero => intro e ctr nsq s h; exact h
  | succ fuel ih =>
    intro e ctr nsq s h
    rw [loopAux_succ]
    split
    · exact h
    · split
      · exact sweep_WF h
      · exact ih (sweep e) (ctr + 1) _ (s + 1) (sweep_WF h)

/-- the relaxation loop never changes any boundary cell of the potential grid. -/
theorem loopAux_boundary_get : ∀ (fuel : ℕ) (e : Electrostatic) (ctr : ℕ) (nsq : ℚ) (s : ℕ),
    e.potentialWF → ∀ i j k : ℕ, inBox e.cells.x e.cells.y e.cells.z (i, j, k) →
    (i = 0 ∨ i = e.cells.x - 1 ∨ j = 0 ∨ j = e.cells.y - 1
      ∨ k = 0 ∨ k = e.cells.z - 1) →
    (loopAux fuel e ctr nsq s).1.potential.get i j k = e.potential.get i j k := by
  intro fuel
  induction fuel with
  | zero => intro e ctr nsq s _ i j k _ _; rfl
  | succ fuel ih =>
    intro e ctr nsq s hWF i j k hin hb
    rw [loopAux_succ]
    split
    · rfl
    · split
      · exact sweep_boundary_get hWF hin hb
      · refine (ih (sweep e) (ctr + 1) _ (s + 1) (sweep_WF hWF) i j k hin hb).trans ?_
        exact sweep_boundary_get hWF hin hb

/-! ### A concrete engine on which the solver never converges

On a 3×3×4 grid with `delta_inv_sq = (1, 1, 12)`, zero charge density and
potential `+1, -1` at the two interior nodes (1,1,1), (1,1,2), one sweep
exactly negates the interior values (the pair `(1, -1)` is an eigenvector of
eigenvalue −1 of the sweep map), so the residual norm is `464/9 > GS_TOL` at
every convergence check and the loop runs into the iteration cap. -/

def cellsB : CoordinateTriplet ℕ := ⟨3, 3, 4⟩

def ePlus : Electrostatic :=
  { size := ⟨1, 1, 1⟩
    cells := cellsB
    delta := ⟨1, 1, 1⟩
    potential := { ScalarField.new cellsB with
      data := ((List.replicate 36 (0 : ℚ)).set 13 1).set 22 (-1) }
    charge_density := ScalarField.new cellsB
    electric_field := VectorField.new cellsB
    cell_vol := ScalarField.new cellsB
    delta_inv_sq := ⟨1, 1, 12⟩ }

def eMinus : Electrostatic :=
  { ePlus with potential := { ePlus.potential with
      data := ((List.replicate 36 (0 : ℚ)).set 13 (-1)).set 22 1 } }

def eOf : Bool → Electrostatic
  | false => ePlus
  | true => eMinus

/-- potential buffer after the first interior-node update of a sweep of `ePlus`. -/
def dMid : List ℚ := ((List.replicate 36 (0 : ℚ)).set 13 (-1)).set 22 (-1)

/-- potential buffer after the first interior-node update of a sweep of `eMinus`. -/
def dMid' : List ℚ := ((List.replicate 36 (0 : ℚ)).set 13 1).set 22 1

theorem sweep_ePlus : sweep ePlus = eMinus := by
  have hL : ePlus.interiorList = [(1, 1, 1), (1, 1, 2)] := by decide
  have hv1 : gsVal ePlus ePlus.potential.data (1, 1, 1) = -1 := by
    have c0 : getL ePlus.potential.data ePlus.potential.r_offset ePlus.potential.p_offset 1 1 1 = 1 := by decide
    have cxp : getL ePlus.potential.data ePlus.potential.r_offset ePlus.potential.p_offset (1+1) 1 1 = 0 := by decide
    have cxm : getL ePlus.potential.data ePlus.potential.r_offset ePlus.potential.p_offset (1-1) 1 1 = 0 := by decide
    have cyp : getL ePlus.potential.data ePlus.potential.r_offset ePlus.potential.p_offset 1 (1+1) 1 = 0 := by decide
    have cym : getL ePlus.potential.data ePlus.potential.r_offset ePlus.potential.p_offset 1 (1-1) 1 = 0 := by decide
    have czp : getL ePlus.potential.data ePlus.potential.r_offset ePlus.potential.p_offset 1 1 (1+1) = -1 := by decide
    have czm : getL ePlus.potential.data ePlus.potential.r_offset ePlus.potential.p_offset 1 1 (1-1) = 0 := by decide
    have cq : ePlus.charge_density.get 1 1 1 = 0 := by decide
    have hdx : ePlus.delta_inv_sq.x = 1 := by decide
    have hdy : ePlus.delta_inv_sq.y = 1 := by decide
    have hdz : ePlus.delta_inv_sq.z = 12 := by decide
    have hden : gsDenom ePlus = 28 := by norm_num [gsDenom, ePlus]
    simp only [gsVal]
    rw [c0, cxp, cxm, cyp, cym, czp, czm, cq, hdx, hdy, hdz, hden]
    norm_num [SOR_ACC]
  have hmid : ePlus.potential.data.set
      (lin3 ePlus.potential.r_offset ePlus.potential.p_offset (1, 1, 1)) (-1 : ℚ) = dMid := by
    decide
  have hv2 : gsVal ePlus dMid (1, 1, 2) = 1 := by
    have c0 : getL dMid ePlus.potential.r_offset ePlus.potential.p_offset 1 1 2 = -1 := by decide
    have cxp : getL dMid ePlus.potential.r_offset ePlus.potential.p_offset (1+1) 1 2 = 0 := by decide
    have cxm : getL dMid ePlus.potential.r_offset ePlus.potential.p_offset (1-1) 1 2 = 0 := by decide
    have cyp : getL dMid ePlus.potential.r_offset ePlus.potential.p_offset 1 (1+1) 2 = 0 := by decide
    have cym : getL dMid ePlus.potential.r_offset ePlus.potential.p_offset 1 (1-1) 2 = 0 := by decide
    have czp : getL dMid ePlus.potential.r_offset ePlus.potential.p_offset 1 1 (2+1) = 0 := by decide
    have czm : getL dMid ePlus.potential.r_offset ePlus.potential.p_offset 1 1 (2-1) = -1 := by decide
    have cq : ePlus.charge_density.get 1 1 2 = 0 := by decide
    have hdx : ePlus.delta_inv_sq.x = 1 := by decide
    have hdy : ePlus.delta_inv_sq.y = 1 := by decide
    have hdz : ePlus.delta_inv_sq.z = 12 := by decide
    have hden : gsDenom ePlus = 28 := by norm_num [gsDenom, ePlus]
    simp only [gsVal]
    rw [c0, cxp, cxm, cyp, cym, czp, czm, cq, hdx, hdy, hdz, hden]
    norm_num [SOR_ACC]
  have hdata : sweepData ePlus = eMinus.potential.data := by
    rw [sweepData, show ePlus.interiorList = [(1, 1, 1), (1, 1, 2)] from hL,
      List.foldl_cons, List.foldl_cons, List.foldl_nil, hv1, hmid, hv2]
    decide
  show { ePlus with potential := { ePlus.potential with data := sweepData ePlus } } = eMinus
  rw [hdata]
  rfl

theorem sweep_eMinus : sweep eMinus = ePlus := by
  have hL : eMinus.interiorList = [(1, 1, 1), (1, 1, 2)] := by decide
  have hv1 : gsVal eMinus eMinus.potential.data (1, 1, 1) = 1 := by
    have c0 : getL eMinus.potential.data eMinus.potential.r_offset eMinus.potential.p_offset 1 1 1 = -1 := by decide
    have cxp : getL eMinus.potential.data eMinus.potential.r_offset eMinus.potential.p_offset (1+1) 1 1 = 0 := by decide
    have cxm : getL eMinus.potential.data eMinus.potential.r_offset eMinus.potential.p_offset (1-1) 1 1 = 0 := by decide
    have cyp : getL eMinus.potential.data eMinus.potential.r_offset eMinus.potential.p_offset 1 (1+1) 1 = 0 := by decide
    have cym : getL eMinus.potential.data eMinus.potential.r_offset eMinus.potential.p_offset 1 (1-1) 1 = 0 := by decide
    have czp : getL eMinus.potential.data eMinus.potential.r_offset eMinus.potential.p_offset 1 1 (1+1) = 1 := by decide
    have czm : getL eMinus.potential.data eMinus.potential.r_offset eMinus.potential.p_offset 1 1 (1-1) = 0 := by decide
    have cq : eMinus.charge_density.get 1 1 1 = 0 := by decide
    have hdx : eMinus.delta_inv_sq.x = 1 := by decide
    have hdy : eMinus.delta_inv_sq.y = 1 := by decide
    have hdz : eMinus.delta_inv_sq.z = 12 := by decide
    have hden : gsDenom eMinus = 28 := by norm_num [gsDenom, eMinus, ePlus]
    simp only [gsVal]
    rw [c0, cxp, cxm, cyp, cym, czp, czm, cq, hdx, hdy, hdz, hden]
    norm_num [SOR_ACC]
  have hmid : eMinus.potential.data.set
      (lin3 eMinus.potential.r_offset eMinus.potential.p_offset (1, 1, 1)) (1 : ℚ) = dMid' := by
    decide
  have hv2 : gsVal eMinus dMid' (1, 1, 2) = -1 := by
    have c0 : getL dMid' eMinus.potential.r_offset eMinus.potential.p_offset 1 1 2 = 1 := by decide
    have cxp : getL dMid' eMinus.potential.r_offset eMinus.potential.p_offset (1+1) 1 2 = 0 := by decide
    have cxm : getL dMid' eMinus.potential.r_offset eMinus.potential.p_offset (1-1) 1 2 = 0 := by decide
    have cyp : getL dMid' eMinus.potential.r_offset eMinus.potential.p_offset 1 (1+1) 2 = 0 := by decide
    have cym : getL dMid' eMinus.potential.r_offset eMinus.potential.p_offset 1 (1-1) 2 = 0 := by decide
    have czp : getL dMid' eMinus.potential.r_offset eMinus.potential.p_offset 1 1 (2+1) = 0 := by decide
    have czm : getL dMid' eMinus.potential.r_offset eMinus.potential.p_offset 1 1 (2-1) = 1 := by decide
    have cq : eMinus.charge_density.get 1 1 2 = 0 := by decide
    have hdx : eMinus.delta_inv_sq.x = 1 := by decide
    have hdy : eMinus.delta_inv_sq.y = 1 := by decide
    have hdz : eMinus.delta_inv_sq.z = 12 := by decide
    have hden : gsDenom eMinus = 28 := by norm_num [gsDenom, eMinus, ePlus]
    simp only [gsVal]
    rw [c0, cxp, cxm, cyp, cym, czp, czm, cq, hdx, hdy, hdz, hden]
    norm_num [SOR_ACC]
  have hdata : sweepData eMinus = ePlus.potential.data := by
    rw [sweepData, show eMinus.interiorList = [(1, 1, 1), (1, 1, 2)] from hL,
      List.foldl_cons, List.foldl_cons, List.foldl_nil, hv1, hmid, hv2]
    decide
  show { eMinus with potential := { eMinus.potential with data := sweepData eMinus } } = ePlus
  rw [hdata]
  rfl

theorem sweep_eOf (b : Bool) : sweep (eOf b) = eOf (!b) := by
  cases b
  · exact sweep_ePlus
  · exact sweep_eMinus

theorem resid_ePlus_1 : resid ePlus (1, 1, 1) = -40 := by
  have c0 : ePlus.potential.get 1 1 1 = 1 := by decide
  have cxp : ePlus.potential.get (1+1) 1 1 = 0 := by decide
  have cxm : ePlus.potential.get (1-1) 1 1 = 0 := by decide
  have cyp : ePlus.potential.get 1 (1+1) 1 = 0 := by decide
  have cym : ePlus.potential.get 1 (1-1) 1 = 0 := by decide
  have czp : ePlus.potential.get 1 1 (1+1) = -1 := by decide
  have czm : ePlus.potential.get 1 1 (1-1) = 0 := by decide
  have cq : ePlus.charge_density.get 1 1 1 = 0 := by decide
  have hdx : ePlus.delta_inv_sq.x = 1 := by decide
  have hdy : ePlus.delta_inv_sq.y = 1 := by decide
  have hdz : ePlus.delta_inv_sq.z = 12 := by decide
  simp only [resid]
  rw [c0, cxp, cxm, cyp, cym, czp, czm, cq, hdx, hdy, hdz]
  norm_num

theorem resid_ePlus_2 : resid ePlus (1, 1, 2) = 16 := by
  have c0 : ePlus.potential.get 1 1 2 = -1 := by decide
  have cxp : ePlus.potential.get (1+1) 1 2 = 0 := by decide
  have cxm : ePlus.potential.get (1-1) 1 2 = 0 := by decide
  have cyp : ePlus.potential.get 1 (1+1) 2 = 0 := by decide
  have cym : ePlus.potential.get 1 (1-1) 2 = 0 := by decide
  have czp : ePlus.potential.get 1 1 (2+1) = 0 := by decide
  have czm : ePlus.potential.get 1 1 (2-1) = 1 := by decide
  have cq : ePlus.charge_density.get 1 1 2 = 0 := by decide
  have hdx : ePlus.delta_inv_sq.x = 1 := by decide
  have hdy : ePlus.delta_inv_sq.y = 1 := by decide
  have hdz : ePlus.delta_inv_sq.z = 12 := by decide
  simp only [resid]
  rw [c0, cxp, cxm, cyp, cym, czp, czm, cq, hdx, hdy, hdz]
  norm_num

theorem resid_eMinus_1 : resid eMinus (1, 1, 1) = 40 := by
  have c0 : eMinus.potential.get 1 1 1 = -1 := by decide
  have cxp : eMinus.potential.get (1+1) 1 1 = 0 := by decide
  have cxm : eMinus.potential.get (1-1) 1 1 = 0 := by decide
  have cyp : eMinus.potential.get 1 (1+1) 1 = 0 := by decide
  have cym : eMinus.potential.get 1 (1-1) 1 = 0 := by decide
  have czp : eMinus.potential.get 1 1 (1+1) = 1 := by decide
  have czm : eMinus.potential.get 1 1 (1-1) = 0 := by decide
  have cq : eMinus.charge_density.get 1 1 1 = 0 := by decide
  have hdx : eMinus.delta_inv_sq.x = 1 := by decide
  have hdy : eMinus.delta_inv_sq.y = 1 := by decide
  have hdz : eMinus.delta_inv_sq.z = 12 := by decide
  simp only [resid]
  rw [c0, cxp, cxm, cyp, cym, czp, czm, cq, hdx, hdy, hdz]
  norm_num

theorem resid_eMinus_2 : resid eMinus (1, 1, 2) = -16 := by
  have c0 : eMinus.potential.get 1 1 2 = 1 := by decide
  have cxp : eMinus.potential.get (1+1) 1 2 = 0 := by decide
  have cxm : eMinus.potential.get (1-1) 1 2 = 0 := by decide
  have cyp : eMinus.potential.get 1 (1+1) 2 = 0 := by decide
  have cym : eMinus.potential.get 1 (1-1) 2 = 0 := by decide
  have czp : eMinus.potential.get 1 1 (2+1) = 0 := by decide
  have czm : eMinus.potential.get 1 1 (2-1) = -1 := by decide
  have cq : eMinus.charge_density.get 1 1 2 = 0 := by decide
  have hdx : eMinus.delta_inv_sq.x = 1 := by decide
  have hdy : eMinus.delta_inv_sq.y = 1 := by decide
  have hdz : eMinus.delta_inv_sq.z = 12 := by decide
  simp only [resid]
  rw [c0, cxp, cxm, cyp, cym, czp, czm, cq, hdx, hdy, hdz]
  norm_num

theorem resNormSq_eOf (b : Bool) : resNormSq (eOf b) = 464 / 9 := by
  cases b
  · have hL : ePlus.interiorList = [(1, 1, 1), (1, 1, 2)] := by decide
    have hacc : resAcc ePlus = 1856 := by
      rw [resAcc, show ePlus.interiorList = [(1, 1, 1), (1, 1, 2)] from hL,
        List.foldl_cons, List.foldl_cons, List.foldl_nil, resid_ePlus_1, resid_ePlus_2]
      norm_num
    have hcnt : ePlus.cellCount = 36 := by decide
    show resNormSq ePlus = 464 / 9
    rw [resNormSq, hacc, hcnt]
    norm_num
  · have hL : eMinus.interiorList = [(1, 1, 1), (1, 1, 2)] := by decide
    have hacc : resAcc eMinus = 1856 := by
      rw [resAcc, show eMinus.interiorList = [(1, 1, 1), (1, 1, 2)] from hL,
        List.foldl_cons, List.foldl_cons, List.foldl_nil, resid_eMinus_1, resid_eMinus_2]
      norm_num
    have hcnt : eMinus.cellCount = 36 := by decide
    show resNormSq eMinus = 464 / 9
    rw [resNormSq, hacc, hcnt]
    norm_num

theorem tol_lt_cycle : GS_TOL_SQ < 464 / 9 := by
  norm_num [GS_TOL_SQ, GS_TOL]

theorem tol_lt_fMAXsq : GS_TOL_SQ < fMAX ^ 2 := by
  norm_num [GS_TOL_SQ, GS_TOL, fMAX]

/-- from any counter position, the run on the cycling engine reaches the
iteration cap and fails, having swept once per iteration. -/
theorem cycleRun : ∀ (d : ℕ) (b : Bool) (ctr s : ℕ) (nsq : ℚ),
    ctr + d = GS_MAX_ITER → GS_TOL_SQ < nsq →
    ∃ b', loopAux (d + 1) (eOf b) ctr nsq s = (eOf b', some gsErr, s + (d + 1)) := by
  intro d
  induction d with
  | zero =>
    intro b ctr s nsq hctr hnsq
    refine ⟨!b, ?_⟩
    rw [loopAux_succ, if_neg (not_le.mpr hnsq), if_pos (by omega : ctr = GS_MAX_ITER)]
    rw [sweep_eOf]
  | succ d ih =>
    intro b ctr s nsq hctr hnsq
    have hne : ¬ (ctr = GS_MAX_ITER) := by omega
    rw [loopAux_succ, if_neg (not_le.mpr hnsq), if_neg hne, sweep_eOf]
    have hnsq' : GS_TOL_SQ
        < (if ctr % CONV_CHECK_ITER = 0 then resNormSq (eOf !b) else nsq) := by
      split
      · rw [resNormSq_eOf]; exact tol_lt_cycle
      · exact hnsq
    obtain ⟨b', hb'⟩ := ih (!b) (ctr + 1) (s + 1) _ (by omega) hnsq'
    refine ⟨b', ?_⟩
    rw [hb', show s + 1 + (d + 1) = s + (d + 1 + 1) by omega]

/-- the full solve on `ePlus`: non-convergence error after 10001 sweeps. -/
theorem solve_ePlus_spec : (solvePotential ePlus).2.1 = some gsErr
    ∧ (solvePotential ePlus).2.2 = GS_MAX_ITER + 1 := by
  obtain ⟨b', hb'⟩ := cycleRun GS_MAX_ITER false 0 0 (fMAX ^ 2) (by omega) tol_lt_fMAXsq
  have h0 : eOf false = ePlus := rfl
  rw [h0] at hb'
  rw [solvePotential, hb']
  exact ⟨rfl, Nat.zero_add _⟩

/-! ### The trivial steady state: zero charge density and zero potential -/

theorem getElem?_getD_zero {l : List ℚ} (h : ∀ x ∈ l, x = 0) (n : ℕ) : l[n]?.getD 0 = 0 := by
  cases hg : l[n]? with
  | none => rfl
  | some a => exact h a (List.getElem?_mem hg)

theorem gsVal_zero {e : Electrostatic} (hρ : ∀ x ∈ e.charge_density.data, x = 0)
    {g : List ℚ} (hg : ∀ x ∈ g, x = 0) (t : ℕ × ℕ × ℕ) : gsVal e g t = 0 := by
  simp [gsVal, getL, ScalarField.get, getD_zero hg, getD_zero hρ,
    getElem?_getD_zero hg, getElem?_getD_zero hρ]

theorem sweepData_zero {e : Electrostatic} (hρ : ∀ x ∈ e.charge_density.data, x = 0)
    (hpot : ∀ x ∈ e.potential.data, x = 0) : sweepData e = e.potential.data := by
  suffices h : ∀ (L : List (ℕ × ℕ × ℕ)) (g : List ℚ), (∀ x ∈ g, x = 0) →
      L.foldl (fun g t =>
        g.set (lin3 e.potential.r_offset e.potential.p_offset t) (gsVal e g t)) g = g by
    exact h _ _ hpot
  intro L
  induction L with
  | nil => intro g _; rfl
  | cons hd tl ih =>
    intro g hg
    rw [List.foldl_cons, gsVal_zero hρ hg, set_zero_of_all_zero hg, ih g hg]

theorem sweep_zero {e : Electrostatic} (hρ : ∀ x ∈ e.charge_density.data, x = 0)
    (hpot : ∀ x ∈ e.potential.data, x = 0) : sweep e = e := by
  show { e with potential := { e.potential with data := sweepData e } } = e
  rw [sweepData_zero hρ hpot]

theorem resid_zero {e : Electrostatic} (hρ : ∀ x ∈ e.charge_density.data, x = 0)
    (hpot : ∀ x ∈ e.potential.data, x = 0) (t : ℕ × ℕ × ℕ) : resid e t = 0 := by
  simp [resid, ScalarField.get, getD_zero hρ, getD_zero hpot,
    getElem?_getD_zero hρ, getElem?_getD_zero hpot]

theorem resAcc_zero {e : Electrostatic} (hρ : ∀ x ∈ e.charge_density.data, x = 0)
    (hpot : ∀ x ∈ e.potential.data, x = 0) : resAcc e = 0 := by
  unfold resAcc
  suffices h : ∀ (L : List (ℕ × ℕ × ℕ)) (a : ℚ),
      L.foldl (fun a t => a + resid e t * resid e t) a = a by
    exact h _ 0
  intro L
  induction L with
  | nil => intro a; rfl
  | cons hd tl ih =>
    intro a
    rw [List.foldl_cons, resid_zero hρ hpot, mul_zero, add_zero, ih]

theorem resNormSq_zero {e : Electrostatic} (hρ : ∀ x ∈ e.charge_density.data, x = 0)
    (hpot : ∀ x ∈ e.potential.data, x = 0) : resNormSq e = 0 := by
  unfold resNormSq
  rw [resAcc_zero hρ hpot, zero_div]

theorem solvePotential_zero {e : Electrostatic} (hρ : ∀ x ∈ e.charge_density.data, x = 0)
    (hpot : ∀ x ∈ e.potential.data, x = 0) : solvePotential e = (e, none, 1) := by
  rw [solvePotential, loopAux_succ]
  rw [if_neg (by norm_num [fMAX, GS_TOL_SQ, GS_TOL] : ¬ (fMAX ^ 2 ≤ GS_TOL_SQ))]
  rw [if_neg (by decide : ¬ ((0 : ℕ) = GS_MAX_ITER))]
  rw [sweep_zero hρ hpot]
  rw [if_pos (by decide : (0 : ℕ) % CONV_CHECK_ITER = 0)]
  rw [resNormSq_zero hρ hpot]
  rw [show GS_MAX_ITER = 9999 + 1 by decide, loopAux_succ]
  rw [if_pos (by norm_num [GS_TOL_SQ, GS_TOL] : (0 : ℚ) ≤ GS_TOL_SQ)]

theorem update_zero {e : Electrostatic} (hρ : ∀ x ∈ e.charge_density.data, x = 0)
    (hpot : ∀ x ∈ e.potential.data, x = 0) :
    update e = (solveElectricField e, none) := by
  unfold update
  rw [solvePotential_zero hρ hpot]

/-! ### What a solver failure always looks like -/

/-- if the loop fails, the error carries `GS_TOL` and `GS_MAX_ITER`, and the
number of sweeps equals the starting count plus one sweep per remaining
iteration (the error fires after the sweep of the capped iteration). -/
theorem loopAux_error : ∀ (fuel : ℕ) (e : Electrostatic) (ctr : ℕ) (nsq : ℚ) (s : ℕ)
    (e' : Electrostatic) (err : GsErr) (n : ℕ),
    ctr + fuel = GS_MAX_ITER + 1 →
    loopAux fuel e ctr nsq s = (e', some err, n) →
    err = gsErr ∧ n = s + fuel := by
  intro fuel
  induction fuel with
  | zero =>
    intro e ctr nsq s e' err n hctr h
    injection h with h1 h23
    injection h23 with h2 h3
    exact Option.noConfusion h2
  | succ fuel ih =>
    intro e ctr nsq s e' err n hctr h
    rw [loopAux_succ] at h
    split at h
    · injection h with h1 h23
      injection h23 with h2 h3
      exact Option.noConfusion h2
    · split at h
      · rename_i hcap
        injection h with h1 h23
        injection h23 with h2 h3
        injection h2 with h2
        have hfuel : fuel = 0 := by omega
        exact ⟨h2.symm, by omega⟩
      · have := ih (sweep e) (ctr + 1) _ (s + 1) e' err n (by omega) h
        exact ⟨this.1, by omega⟩

/-- a failing `solve_potential` always reports `gsErr` after exactly
`GS_MAX_ITER + 1` sweeps. -/
theorem solvePotential_error {e e' : Electrostatic} {err : GsErr} {n : ℕ}
    (h : solvePotential e = (e', some err, n)) :
    err = gsErr ∧ n = GS_MAX_ITER + 1 := by
  have := loopAux_error (GS_MAX_ITER + 1) e 0 (fMAX ^ 2) 0 e' err n (by omega) h
  exact ⟨this.1, by omega⟩

/-! ### The electric-field differentiation fold -/

/-- the x-projection of the field-write fold is a fold of point writes into the
x buffer (the written values depend only on the fixed potential grid). -/
theorem efFold_x (e : Electrostatic) : ∀ (L : List (ℕ × ℕ × ℕ)) (v : VectorField),
    (L.foldl (efWrite e) v).x
      = { v.x with data := (L.foldl
          (fun g t => g.set (lin3 v.x.r_offset v.x.p_offset t) (efX e t)) v.x.data) } := by
  intro L
  induction L with
  | nil => intro v; rfl
  | cons hd tl ih =>
    intro v
    rw [List.foldl_cons, List.foldl_cons, ih (efWrite e v hd)]
    rfl

/-- y-projection analogue of `efFold_x`. -/
theorem efFold_y (e : Electrostatic) : ∀ (L : List (ℕ × ℕ × ℕ)) (v : VectorField),
    (L.foldl (efWrite e) v).y
      = { v.y with data := (L.foldl
          (fun g t => g.set (lin3 v.y.r_offset v.y.p_offset t) (efY e t)) v.y.data) } := by
  intro L
  induction L with
  | nil => intro v; rfl
  | cons hd tl ih =>
    intro v
    rw [List.foldl_cons, List.foldl_cons, ih (efWrite e v hd)]
    rfl

/-- z-projection analogue of `efFold_x`. -/
theorem efFold_z (e : Electrostatic) : ∀ (L : List (ℕ × ℕ × ℕ)) (v : VectorField),
    (L.foldl (efWrite e) v).z
      = { v.z with data := (L.foldl
          (fun g t => g.set (lin3 v.z.r_offset v.z.p_offset t) (efZ e t)) v.z.data) } := by
  intro L
  induction L with
  | nil => intro v; rfl
  | cons hd tl ih =>
    intro v
    rw [List.foldl_cons, List.foldl_cons, ih (efWrite e v hd)]
    rfl

/-- value written into a component buffer by the differentiation fold, for a
generic write-value function: last-write-wins at the unique writer. -/
theorem efFold_component_getD {cx cy cz : ℕ} (pos : ℕ × ℕ × ℕ → ℕ)
    (val : ℕ × ℕ × ℕ → ℚ) (g : List ℚ) {i j k : ℕ}
    (hi : i < cx) (hj : j < cy) (hk : k < cz)
    (hpos : ∀ u, inBox cx cy cz u → pos u = lin3 cx (cx * cy) u)
    (hlen : g.length = cx * cy * cz) :
    ((boxNodes cx cy cz).foldl (fun g t => g.set (pos t) (val t)) g).getD
        (pos (i, j, k)) 0 = val (i, j, k) := by
  obtain ⟨A, B, hsplit, hA, hB⟩ := @boxNodes_split cx cy cz i j k hi hj hk
  have hbox_t : inBox cx cy cz (i, j, k) := inBox_mk hi hj hk
  have hBne : ∀ u ∈ B, pos u ≠ pos (i, j, k) := by
    intro u hu
    rw [hpos u (mem_boxNodes (hB u hu).1), hpos (i, j, k) hbox_t]
    exact lin3_inj (mem_boxNodes (hB u hu).1) hbox_t (Ne.symm (lexLt_ne (hB u hu).2))
  have hq : pos (i, j, k) < g.length := by
    rw [hpos (i, j, k) hbox_t, hlen]
    exact lin3_lt hbox_t
  exact foldl_set_split_getD pos (fun _ t => val t) hsplit hBne g hq

/-- all three electric-field component grids are shaped by the engine's cell
counts (true of every constructed engine). -/
def Electrostatic.efieldWF (e : Electrostatic) : Prop :=
  e.electric_field.x.shapedBy e.cells ∧ e.electric_field.y.shapedBy e.cells
    ∧ e.electric_field.z.shapedBy e.cells

instance (e : Electrostatic) : Decidable e.efieldWF := by
  unfold Electrostatic.efieldWF; infer_instance

/-- x-axis stencil as the specification words it: central difference strictly
between the edges, `-(-3 P0 + 4 P1 - P2)/(2 dx)` at index 0 and
`-(P(n-3) - 4 P(n-2) + 3 P(n-1))/(2 dx)` at index `n-1`. -/
def specEfX (e : Electrostatic) (i j k : ℕ) : ℚ :=
  if i = 0 then
    -(-3 * e.potential.get 0 j k + 4 * e.potential.get 1 j k - e.potential.get 2 j k)
      / (2 * e.delta.x)
  else if i = e.cells.x - 1 then
    -(e.potential.get (e.cells.x - 3) j k - 4 * e.potential.get (e.cells.x - 2) j k
        + 3 * e.potential.get (e.cells.x - 1) j k) / (2 * e.delta.x)
  else
    -(e.potential.get (i + 1) j k - e.potential.get (i - 1) j k) / (2 * e.delta.x)

/-- y-axis analogue of `specEfX`. -/
def specEfY (e : Electrostatic) (i j k : ℕ) : ℚ :=
  if j = 0 then
    -(-3 * e.potential.get i 0 k + 4 * e.potential.get i 1 k - e.potential.get i 2 k)
      / (2 * e.delta.y)
  else if j = e.cells.y - 1 then
    -(e.potential.get i (e.cells.y - 3) k - 4 * e.potential.get i (e.cells.y - 2) k
        + 3 * e.potential.get i (e.cells.y - 1) k) / (2 * e.delta.y)
  else
    -(e.potential.get i (j + 1) k - e.potential.get i (j - 1) k) / (2 * e.delta.y)

/-- z-axis analogue of `specEfX`. -/
def specEfZ (e : Electrostatic) (i j k : ℕ) : ℚ :=
  if k = 0 then
    -(-3 * e.potential.get i j 0 + 4 * e.potential.get i j 1 - e.potential.get i j 2)
      / (2 * e.delta.z)
  else if k = e.cells.z - 1 then
    -(e.potential.get i j (e.cells.z - 3) - 4 * e.potential.get i j (e.cells.z - 2)
        + 3 * e.potential.get i j (e.cells.z - 1)) / (2 * e.delta.z)
  else
    -(e.potential.get i j (k + 1) - e.potential.get i j (k - 1)) / (2 * e.delta.z)

theorem neg_inv_mul (d a : ℚ) : -1 / d * a = -a / d := by
  rw [div_mul_eq_mul_div, neg_one_mul]

/-- the source's branch structure agrees with the specification's stencil
classification on every in-range index of an axis with at least 3 cells. -/
theorem efX_eq_specEfX (e : Electrostatic) (h3 : 3 ≤ e.cells.x) {i j k : ℕ}
    (hi : i < e.cells.x) : efX e (i, j, k) = specEfX e i j k := by
  simp only [efX, specEfX]
  by_cases h0 : i = 0
  · subst h0
    rw [if_neg (by simp), if_pos rfl, if_pos rfl, neg_inv_mul]
  · by_cases h1 : i = e.cells.x - 1
    · rw [if_neg (by simp [h0, h1]), if_neg h0, if_neg h0, if_pos h1, neg_inv_mul]
      rw [show i - 2 = e.cells.x - 3 by omega, show i - 1 = e.cells.x - 2 by omega, h1]
    · rw [if_pos ⟨h0, h1⟩, if_neg h0, if_neg h1, neg_inv_mul]

theorem efY_eq_specEfY (e : Electrostatic) (h3 : 3 ≤ e.cells.y) {i j k : ℕ}
    (hj : j < e.cells.y) : efY e (i, j, k) = specEfY e i j k := by
  simp only [efY, specEfY]
  by_cases h0 : j = 0
  · subst h0
    rw [if_neg (by simp), if_pos rfl, if_pos rfl, neg_inv_mul]
  · by_cases h1 : j = e.cells.y - 1
    · rw [if_neg (by simp [h0, h1]), if_neg h0, if_neg h0, if_pos h1, neg_inv_mul]
      rw [show j - 2 = e.cells.y - 3 by omega, show j - 1 = e.cells.y - 2 by omega, h1]
    · rw [if_pos ⟨h0, h1⟩, if_neg h0, if_neg h1, neg_inv_mul]

theorem efZ_eq_specEfZ (e : Electrostatic) (h3 : 3 ≤ e.cells.z) {i j k : ℕ}
    (hk : k < e.cells.z) : efZ e (i, j, k) = specEfZ e i j k := by
  simp only [efZ, specEfZ]
  by_cases h0 : k = 0
  · subst h0
    rw [if_neg (by simp), if_pos rfl, if_pos rfl, neg_inv_mul]
  · by_cases h1 : k = e.cells.z - 1
    · rw [if_neg (by simp [h0, h1]), if_neg h0, if_neg h0, if_pos h1, neg_inv_mul]
      rw [show k - 2 = e.cells.z - 3 by omega, show k - 1 = e.cells.z - 2 by omega, h1]
    · rw [if_pos ⟨h0, h1⟩, if_neg h0, if_neg h1, neg_inv_mul]

/-- per-cell value of the x component after `solve_electric_field`. -/
theorem solveElectricField_x_get (e : Electrostatic)
    (hWFx : e.electric_field.x.shapedBy e.cells) {i j k : ℕ}
    (hi : i < e.cells.x) (hj : j < e.cells.y) (hk : k < e.cells.z) :
    (solveElectricField e).electric_field.x.get i j k = efX e (i, j, k) := by
  obtain ⟨hr, hp, hlen⟩ := hWFx
  have hx : (solveElectricField e).electric_field.x
      = { e.electric_field.x with data :=
          ((boxNodes e.cells.x e.cells.y e.cells.z).foldl
            (fun g t => g.set
              (lin3 e.electric_field.x.r_offset e.electric_field.x.p_offset t) (efX e t))
            e.electric_field.x.data) } :=
    efFold_x e (boxNodes e.cells.x e.cells.y e.cells.z) e.electric_field
  rw [ScalarField.get, hx]
  refine @efFold_component_getD e.cells.x e.cells.y e.cells.z _ _ _ i j k hi hj hk ?_ hlen
  intro u _
  rw [hr, hp]

/-- per-cell value of the y component after `solve_electric_field`. -/
theorem solveElectricField_y_get (e : Electrostatic)
    (hWFy : e.electric_field.y.shapedBy e.cells) {i j k : ℕ}
    (hi : i < e.cells.x) (hj : j < e.cells.y) (hk : k < e.cells.z) :
    (solveElectricField e).electric_field.y.get i j k = efY e (i, j, k) := by
  obtain ⟨hr, hp, hlen⟩ := hWFy
  have hy : (solveElectricField e).electric_field.y
      = { e.electric_field.y with data :=
          ((boxNodes e.cells.x e.cells.y e.cells.z).foldl
            (fun g t => g.set
              (lin3 e.electric_field.y.r_offset e.electric_field.y.p_offset t) (efY e t))
            e.electric_field.y.data) } :=
    efFold_y e (boxNodes e.cells.x e.cells.y e.cells.z) e.electric_field
  rw [ScalarField.get, hy]
  refine @efFold_component_getD e.cells.x e.cells.y e.cells.z _ _ _ i j k hi hj hk ?_ hlen
  intro u _
  rw [hr, hp]

/-- per-cell value of the z component after `solve_electric_field`. -/
theorem solveElectricField_z_get (e : Electrostatic)
    (hWFz : e.electric_field.z.shapedBy e.cells) {i j k : ℕ}
    (hi : i < e.cells.x) (hj : j < e.cells.y) (hk : k < e.cells.z) :
    (solveElectricField e).electric_field.z.get i j k = efZ e (i, j, k) := by
  obtain ⟨hr, hp, hlen⟩ := hWFz
  have hz : (solveElectricField e).electric_field.z
      = { e.electric_field.z with data :=
          ((boxNodes e.cells.x e.cells.y e.cells.z).foldl
            (fun g t => g.set
              (lin3 e.electric_field.z.r_offset e.electric_field.z.p_offset t) (efZ e t))
            e.electric_field.z.data) } :=
    efFold_z e (boxNodes e.cells.x e.cells.y e.cells.z) e.electric_field
  rw [ScalarField.get, hz]
  refine @efFold_component_getD e.cells.x e.cells.y e.cells.z _ _ _ i j k hi hj hk ?_ hlen
  intro u _
  rw [hr, hp]

/-! ### Specification-level convergence check (C2)

`specResid`/`specResSum` transcribe the specification's residual formula and
its sum over interior nodes; `loopAuxSpec` carries the real-valued error norm
`sqrt (Σ r² / (nx·ny·nz))` and compares it with the tolerance, exactly as the
specification describes the loop.  The refinement theorem identifies this with
the embedded squared-norm loop. -/

/-- residual at an interior node, as the specification words it
(`r = -2 (inv_dx²+inv_dy²+inv_dz²) φ + ρ/ε0 + neighbor terms`). -/
def specResid (e : Electrostatic) (i j k : ℕ) : ℚ :=
  -2 * (e.delta_inv_sq.x + e.delta_inv_sq.y + e.delta_inv_sq.z) * e.potential.get i j k
    + e.charge_density.get i j k / VAC_PERM
    + e.delta_inv_sq.x * (e.potential.get (i + 1) j k + e.potential.get (i - 1) j k)
    + e.delta_inv_sq.y * (e.potential.get i (j + 1) k - e.potential.get i (j - 1) k)
    + e.delta_inv_sq.z * (e.potential.get i j (k + 1) - e.potential.get i j (k - 1))

/-- `Σ r²` over all interior nodes. -/
def specResSum (e : Electrostatic) : ℚ :=
  ∑ i ∈ Finset.Ico 1 (e.cells.x - 1), ∑ j ∈ Finset.Ico 1 (e.cells.y - 1),
    ∑ k ∈ Finset.Ico 1 (e.cells.z - 1), specResid e i j k ^ 2

theorem resid_eq_specResid (e : Electrostatic) (i j k : ℕ) :
    resid e (i, j, k) = specResid e i j k := by
  simp only [resid, specResid]
  rw [INV_VAC_PERM, mul_one_div]
  ring

theorem foldl_add_eq_sum (f : ℕ × ℕ × ℕ → ℚ) :
    ∀ (L : List (ℕ × ℕ × ℕ)) (a : ℚ), L.foldl (fun a t => a + f t) a = a + (L.map f).sum := by
  intro L
  induction L with
  | nil => intro a; simp
  | cons hd tl ih =>
    intro a
    rw [List.foldl_cons, ih, List.map_cons, List.sum_cons]
    ring

theorem sum_map_flatMap (g : ℕ → List (ℕ × ℕ × ℕ)) (f : ℕ × ℕ × ℕ → ℚ) :
    ∀ as : List ℕ, ((as.flatMap g).map f).sum = (as.map fun a => ((g a).map f).sum).sum := by
  intro as
  induction as with
  | nil => rfl
  | cons hd tl ih =>
    rw [List.flatMap_cons, List.map_append, List.sum_append, ih, List.map_cons, List.sum_cons]

theorem sum_map_range' (f : ℕ → ℚ) :
    ∀ (n s : ℕ), ((List.range' s n).map f).sum = ∑ m ∈ Finset.Ico s (s + n), f m := by
  intro n
  induction n with
  | zero => intro s; simp
  | succ n ih =>
    intro s
    have h := @List.range'_concat 1 s n
    rw [one_mul] at h
    rw [h, List.map_append, List.sum_append, ih, List.map_cons, List.map_nil,
      List.sum_cons, List.sum_nil, ← Nat.add_assoc,
      Finset.sum_Ico_succ_top (by omega : s ≤ s + n)]
    ring

theorem Ico_one_shift (c : ℕ) : Finset.Ico 1 (1 + (c - 2)) = Finset.Ico 1 (c - 1) := by
  rcases Nat.lt_or_ge c 2 with h | h
  · have h1 : 1 + (c - 2) = 1 := by omega
    rw [h1, Finset.Ico_self]
    symm
    apply Finset.Ico_eq_empty
    omega
  · congr 1
    omega

/-- the source's residual accumulation equals the specification's triple sum. -/
theorem resAcc_eq_specResSum (e : Electrostatic) : resAcc e = specResSum e := by
  rw [resAcc, foldl_add_eq_sum (fun t => resid e t * resid e t), zero_add,
    Electrostatic.interiorList, interiorNodes, prod3]
  rw [sum_map_flatMap]
  simp only [sum_map_flatMap, List.map_map]
  simp only [sum_map_range']
  simp only [Ico_one_shift]
  refine Finset.sum_congr rfl fun i _ => Finset.sum_congr rfl fun j _ =>
    Finset.sum_congr rfl fun k _ => ?_
  simp only [Function.comp]
  rw [resid_eq_specResid, sq]

theorem specResSum_nonneg (e : Electrostatic) : 0 ≤ specResSum e := by
  refine Finset.sum_nonneg fun i _ => Finset.sum_nonneg fun j _ =>
    Finset.sum_nonneg fun k _ => sq_nonneg _

theorem resNormSq_nonneg (e : Electrostatic) : 0 ≤ resNormSq e := by
  rw [resNormSq]
  exact div_nonneg (by rw [resAcc_eq_specResSum]; exact specResSum_nonneg e)
    (Nat.cast_nonneg _)

/-- the relaxation loop as the specification describes it: real-valued
`l2_err_norm` carried across iterations, recomputed as
`sqrt (Σ r² / (nx·ny·nz))` on every 25th iteration (counter 0 included), loop
while the norm exceeds `GS_TOL`, failure at the iteration cap. -/
noncomputable def loopAuxSpec : ℕ → Electrostatic → ℕ → ℝ → ℕ → Electrostatic × Option GsErr × ℕ
  | 0, e, _, _, s => (e, none, s)
  | fuel + 1, e, ctr, nrm, s =>
    if nrm ≤ ((GS_TOL : ℚ) : ℝ) then (e, none, s)
    else
      if ctr = GS_MAX_ITER then (sweep e, some gsErr, s + 1)
      else loopAuxSpec fuel (sweep e) (ctr + 1)
        (if ctr % CONV_CHECK_ITER = 0 then
          Real.sqrt (((specResSum (sweep e) : ℚ) : ℝ) / (((sweep e).cellCount : ℕ) : ℝ))
        else nrm) (s + 1)

theorem loopAuxSpec_succ (fuel : ℕ) (e : Electrostatic) (ctr : ℕ) (nrm : ℝ) (s : ℕ) :
    loopAuxSpec (fuel + 1) e ctr nrm s =
      if nrm ≤ ((GS_TOL : ℚ) : ℝ) then (e, none, s)
      else
        if ctr = GS_MAX_ITER then (sweep e, some gsErr, s + 1)
        else loopAuxSpec fuel (sweep e) (ctr + 1)
          (if ctr % CONV_CHECK_ITER = 0 then
            Real.sqrt (((specResSum (sweep e) : ℚ) : ℝ) / (((sweep e).cellCount : ℕ) : ℝ))
          else nrm) (s + 1) := rfl

/-- `solve_potential` as the specification describes it. -/
noncomputable def solvePotentialSpec (e : Electrostatic) : Electrostatic × Option GsErr × ℕ :=
  loopAuxSpec (GS_MAX_ITER + 1) e 0 ((fMAX : ℚ) : ℝ) 0

/-- comparing the real square root of the squared norm against the tolerance is
the comparison the embedded loop performs on the square. -/
theorem sqrt_le_tol_iff {q : ℚ} :
    Real.sqrt ((q : ℚ) : ℝ) ≤ ((GS_TOL : ℚ) : ℝ) ↔ q ≤ GS_TOL_SQ := by
  rw [Real.sqrt_le_iff]
  constructor
  · rintro ⟨-, h⟩
    rw [GS_TOL_SQ]
    exact_mod_cast h
  · intro h
    have h0 : (0 : ℚ) ≤ GS_TOL := by norm_num [GS_TOL]
    refine ⟨by exact_mod_cast h0, ?_⟩
    rw [GS_TOL_SQ] at h
    exact_mod_cast h

/-- refinement: the specification-level loop with norm `sqrt q` computes
exactly what the embedded loop computes with squared norm `q`. -/
theorem loopRefine : ∀ (fuel : ℕ) (e : Electrostatic) (ctr : ℕ) (q : ℚ) (s : ℕ),
    loopAuxSpec fuel e ctr (Real.sqrt ((q : ℚ) : ℝ)) s = loopAux fuel e ctr q s := by
  intro fuel
  induction fuel with
  | zero => intro e ctr q s; rfl
  | succ fuel ih =>
    intro e ctr q s
    rw [loopAux_succ, loopAuxSpec_succ]
    by_cases hq : q ≤ GS_TOL_SQ
    · rw [if_pos (sqrt_le_tol_iff.mpr hq), if_pos hq]
    · rw [if_neg (fun h => hq (sqrt_le_tol_iff.mp h)), if_neg hq]
      by_cases hc : ctr = GS_MAX_ITER
      · rw [if_pos hc, if_pos hc]
      · rw [if_neg hc, if_neg hc]
        by_cases hcv : ctr % CONV_CHECK_ITER = 0
        · rw [if_pos hcv, if_pos hcv]
          have hcast : Real.sqrt (((specResSum (sweep e) : ℚ) : ℝ)
                / (((sweep e).cellCount : ℕ) : ℝ))
              = Real.sqrt ((resNormSq (sweep e) : ℚ) : ℝ) := by
            congr 1
            rw [resNormSq, resAcc_eq_specResSum]
            push_cast
            rfl
          rw [hcast, ih]
        · rw [if_neg hcv, if_neg hcv, ih]

theorem fMAX_nonneg : (0 : ℚ) ≤ fMAX := by norm_num [fMAX]

theorem solvePotentialSpec_eq (e : Electrostatic) : solvePotentialSpec e = solvePotential e := by
  rw [solvePotentialSpec, solvePotential]
  have h : ((fMAX : ℚ) : ℝ) = Real.sqrt ((fMAX ^ 2 : ℚ) : ℝ) := by
    push_cast
    rw [Real.sqrt_sq (by exact_mod_cast fMAX_nonneg)]
  rw [h, loopRefine]

/-! ### Elementwise compound assignment on scalar fields (C10) -/

theorem zipApp_length (f : ℚ → ℚ → ℚ) (a b : List ℚ) :
    (List.zipWith f a b ++ a.drop b.length).length = a.length := by
  rw [List.length_append, List.length_zipWith, List.length_drop]
  omega

theorem zipApp_getD_lt (f : ℚ → ℚ → ℚ) (a b : List ℚ) {n : ℕ}
    (h : n < min a.length b.length) :
    (List.zipWith f a b ++ a.drop b.length).getD n 0 = f (a.getD n 0) (b.getD n 0) := by
  have ha : n < a.length := by omega
  have hb : n < b.length := by omega
  have hz : n < (List.zipWith f a b).length := by rw [List.length_zipWith]; omega
  rw [List.getD_eq_getElem?_getD, List.getElem?_append, if_pos hz,
    List.getElem?_eq_getElem hz]
  simp only [Option.getD_some]
  rw [List.getElem_zipWith, List.getD_eq_getElem a 0 ha, List.getD_eq_getElem b 0 hb]

theorem zipApp_getD_ge (f : ℚ → ℚ → ℚ) (a b : List ℚ) {n : ℕ}
    (h : min a.length b.length ≤ n) :
    (List.zipWith f a b ++ a.drop b.length).getD n 0 = a.getD n 0 := by
  rcases Nat.lt_or_ge n a.length with hn | hn
  · have hb : b.length ≤ n := by omega
    have hz : ¬ n < (List.zipWith f a b).length := by rw [List.length_zipWith]; omega
    have hlz : (List.zipWith f a b).length = b.length := by rw [List.length_zipWith]; omega
    rw [List.getD_eq_getElem?_getD, List.getElem?_append, if_neg hz, hlz,
      List.getElem?_drop, show b.length + (n - b.length) = n by omega,
      List.getD_eq_getElem?_getD]
  · rw [List.getD_eq_getElem?_getD,
      List.getElem?_eq_none (by rw [zipApp_length]; omega),
      List.getD_eq_getElem?_getD, List.getElem?_eq_none (by omega)]

/-! ### Concrete vector field witnessing the Display index transposition (C9) -/

/-- z-component grid with pairwise distinct entries on a (1, 2, 2) shape. -/
def zBug : ScalarField :=
  { data := [0, 1, 2, 3], cells := ⟨1, 2, 2⟩, r_offset := 1, p_offset := 2 }

def vBug : VectorField :=
  { cells := ⟨1, 2, 2⟩
    x := ScalarField.new ⟨1, 2, 2⟩
    y := ScalarField.new ⟨1, 2, 2⟩
    z := zBug }

/-! ### Constructor facts (C8) -/

theorem elecNew_none_iff (size : ℚ × ℚ × ℚ) (cells : ℕ × ℕ × ℕ) :
    elecNew size cells = none ↔ cells.1 = 0 ∨ cells.2.1 = 0 ∨ cells.2.2 = 0 := by
  rw [elecNew]
  split
  · rename_i h
    exact ⟨fun _ => h, fun _ => rfl⟩
  · rename_i h
    exact ⟨fun hc => Option.noConfusion hc, fun hc => absurd hc h⟩

theorem elecNew_never_err (size : ℚ × ℚ × ℚ) (cells : ℕ × ℕ × ℕ) (r : Unit) :
    elecNew size cells ≠ some (.error r) := by
  rw [elecNew]
  split
  · exact fun hc => Option.noConfusion hc
  · intro hc
    injection hc with hc
    exact Except.noConfusion hc

theorem elecNew_ok_of_nonzero (size : ℚ × ℚ × ℚ) (cells : ℕ × ℕ × ℕ)
    (h : ¬ (cells.1 = 0 ∨ cells.2.1 = 0 ∨ cells.2.2 = 0)) :
    ∃ e : Electrostatic, elecNew size cells = some (.ok e) := by
  rw [elecNew, if_neg h]
  exact ⟨_, rfl⟩

/-! ### Concrete instances for witnesses -/

def cellsZ : CoordinateTriplet ℕ := ⟨3, 3, 3⟩

/-- a 3×3×3 engine with zero charge density and zero potential, as produced by
`Electrostatic::new` on a unit box. -/
def eZero : Electrostatic :=
  { size := ⟨1, 1, 1⟩
    cells := cellsZ
    delta := ⟨1 / 2, 1 / 2, 1 / 2⟩
    potential := ScalarField.new cellsZ
    charge_density := ScalarField.new cellsZ
    electric_field := VectorField.new cellsZ
    cell_vol := ScalarField.new cellsZ
    delta_inv_sq := ⟨4, 4, 4⟩ }

def sfA : ScalarField := { data := [1, 2, 3], cells := ⟨3, 1, 1⟩, r_offset := 3, p_offset := 3 }

def sfB : ScalarField := { data := [10, 20], cells := ⟨2, 1, 1⟩, r_offset := 2, p_offset := 2 }

/-! ### Claim theorems -/

/-- C1: for every engine with ≥ 3 cells per axis (and a well-formed potential
grid), one relaxation sweep of `solve_potential` gives each interior node
(1 ≤ i ≤ nx−2, 1 ≤ j ≤ ny−2, 1 ≤ k ≤ nz−2) the value
`φ + 1.4·(φ_new − φ)` where `φ_new = (ρ/ε0 + inv_dx²·(φ(i+1)+φ(i−1)) +
inv_dy²·(φ(j+1)−φ(j−1)) + inv_dz²·(φ(k+1)−φ(k−1))) / (2·(inv_dx²+inv_dy²+inv_dz²))`,
the −1 neighbors being read from the already-updated (post-sweep) buffer and
the +1 neighbors and the node itself from the pre-sweep buffer — i.e. the
in-place ascending-lexicographic gauss-seidel sweep with i outermost, j middle,
k innermost, and the y/z neighbor terms combined with subtraction. -/
theorem C1_sweep_gauss_seidel_inplace (e : Electrostatic) (hWF : e.potentialWF)
    (hx : 3 ≤ e.cells.x) (hy : 3 ≤ e.cells.y) (hz : 3 ≤ e.cells.z)
    (i j k : ℕ)
    (hi1 : 1 ≤ i) (hi2 : i ≤ e.cells.x - 2)
    (hj1 : 1 ≤ j) (hj2 : j ≤ e.cells.y - 2)
    (hk1 : 1 ≤ k) (hk2 : k ≤ e.cells.z - 2) :
    (sweep e).potential.get i j k =
      e.potential.get i j k + 1.4 *
        ((e.charge_density.get i j k / VAC_PERM
          + e.delta_inv_sq.x * (e.potential.get (i + 1) j k + (sweep e).potential.get (i - 1) j k)
          + e.delta_inv_sq.y * (e.potential.get i (j + 1) k - (sweep e).potential.get i (j - 1) k)
          + e.delta_inv_sq.z * (e.potential.get i j (k + 1) - (sweep e).potential.get i j (k - 1)))
          / (2 * (e.delta_inv_sq.x + e.delta_inv_sq.y + e.delta_inv_sq.z))
         - e.potential.get i j k) := by
  have h := sweep_get_interior e hWF hi1 (by omega) hj1 (by omega) hk1 (by omega)
  rw [h, INV_VAC_PERM, mul_one_div]
  unfold gsDenom SOR_ACC
  rfl

theorem C1_witness :
    (sweep ePlus).potential.get 1 1 1 =
      ePlus.potential.get 1 1 1 + 1.4 *
        ((ePlus.charge_density.get 1 1 1 / VAC_PERM
          + ePlus.delta_inv_sq.x
            * (ePlus.potential.get (1 + 1) 1 1 + (sweep ePlus).potential.get (1 - 1) 1 1)
          + ePlus.delta_inv_sq.y
            * (ePlus.potential.get 1 (1 + 1) 1 - (sweep ePlus).potential.get 1 (1 - 1) 1)
          + ePlus.delta_inv_sq.z
            * (ePlus.potential.get 1 1 (1 + 1) - (sweep ePlus).potential.get 1 1 (1 - 1)))
          / (2 * (ePlus.delta_inv_sq.x + ePlus.delta_inv_sq.y + ePlus.delta_inv_sq.z))
         - ePlus.potential.get 1 1 1) :=
  C1_sweep_gauss_seidel_inplace ePlus (by decide) (by decide) (by decide) (by decide)
    1 1 1 (by decide) (by decide) (by decide) (by decide) (by decide) (by decide)

/-- C2: `solve_potential` behaves exactly like the specification-level loop
that recomputes, on iterations whose counter is a multiple of 25 (the 0th
included), the error norm as the real square root of (the sum over all
interior nodes of the squared residual
`r = -2(inv_dx²+inv_dy²+inv_dz²)·φ + ρ/ε0 + inv_dx²(φ(i+1)+φ(i−1)) +
inv_dy²(φ(j+1)−φ(j−1)) + inv_dz²(φ(k+1)−φ(k−1))`) divided by `nx·ny·nz`
(the total cell count), and terminates successfully exactly when this norm
is ≤ 1e-5. -/
theorem C2_convergence_check (e : Electrostatic) :
    solvePotentialSpec e = solvePotential e :=
  solvePotentialSpec_eq e

/-- C3 (amended): whenever `solve_potential` fails, the error carries the
tolerance 1e-5 and the iteration bound 10000, and exactly 10001 relaxation
sweeps were attempted — one more than the claim's 10000, because the sweep of
the iteration whose counter equals the bound runs before the bound check. -/
theorem C3_nonconvergence (e : Electrostatic) (err : GsErr) (n : ℕ)
    (h1 : (solvePotential e).2.1 = some err) (h2 : (solvePotential e).2.2 = n) :
    err = ⟨1e-5, 10000⟩ ∧ n = 10001 := by
  have h : solvePotential e = ((solvePotential e).1, some err, n) :=
    Prod.ext rfl (Prod.ext h1 h2)
  have := solvePotential_error h
  exact ⟨this.1, this.2⟩

theorem C3_witness : gsErr = (⟨1e-5, 10000⟩ : GsErr) ∧ (10001 : ℕ) = 10001 :=
  C3_nonconvergence ePlus gsErr 10001 solve_ePlus_spec.1 solve_ePlus_spec.2

/-- C3 counterexample: on the concrete engine `ePlus` the residual norm at
every convergence check is `464/9 > 1e-5`, the solve fails with the
non-convergence error — but after 10001 attempted sweeps, not 10000 as the
claim states. -/
theorem C3_counterexample :
    (solvePotential ePlus).2.1 = some gsErr
    ∧ (solvePotential ePlus).2.2 = 10001
    ∧ (solvePotential ePlus).2.2 ≠ 10000 := by
  refine ⟨solve_ePlus_spec.1, solve_ePlus_spec.2, ?_⟩
  rw [solve_ePlus_spec.2]
  decide

/-- C4: `solve_electric_field` overwrites every cell of all three electric
field components with the specification's per-axis stencils: central
difference strictly inside, forward difference at index 0, backward
difference at index n−1, the other two indices held fixed. -/
theorem C4_electric_field_stencils (e : Electrostatic) (hWF : e.efieldWF)
    (hx : 3 ≤ e.cells.x) (hy : 3 ≤ e.cells.y) (hz : 3 ≤ e.cells.z)
    (i j k : ℕ) (hi : i < e.cells.x) (hj : j < e.cells.y) (hk : k < e.cells.z) :
    (solveElectricField e).electric_field.x.get i j k = specEfX e i j k
    ∧ (solveElectricField e).electric_field.y.get i j k = specEfY e i j k
    ∧ (solveElectricField e).electric_field.z.get i j k = specEfZ e i j k := by
  obtain ⟨w1, w2, w3⟩ := hWF
  exact ⟨(solveElectricField_x_get e w1 hi hj hk).trans (efX_eq_specEfX e hx hi),
    (solveElectricField_y_get e w2 hi hj hk).trans (efY_eq_specEfY e hy hj),
    (solveElectricField_z_get e w3 hi hj hk).trans (efZ_eq_specEfZ e hz hk)⟩

theorem C4_witness :
    (solveElectricField ePlus).electric_field.x.get 1 1 2 = specEfX ePlus 1 1 2
    ∧ (solveElectricField ePlus).electric_field.y.get 1 1 2 = specEfY ePlus 1 1 2
    ∧ (solveElectricField ePlus).electric_field.z.get 1 1 2 = specEfZ ePlus 1 1 2 :=
  C4_electric_field_stencils ePlus (by decide) (by decide) (by decide) (by decide)
    1 1 2 (by decide) (by decide) (by decide)

/-- C5: if `solve_potential` fails, `update` returns that error without
running the field differentiation: the electric field grid is exactly as it
was before the call, the charge density is unchanged, and the returned state
is whatever the last relaxation sweep produced (no rollback). -/
theorem C5_error_aborts_field_solve (e : Electrostatic) (err : GsErr)
    (h : (solvePotential e).2.1 = some err) :
    update e = ((solvePotential e).1, some err)
    ∧ (solvePotential e).1.electric_field = e.electric_field
    ∧ (solvePotential e).1.charge_density = e.charge_density := by
  have hf := loopAux_sameFrame (GS_MAX_ITER + 1) e 0 (fMAX ^ 2) 0
  refine ⟨?_, hf.2.2.2.2.1, hf.2.2.2.1⟩
  have hsp : solvePotential e
      = ((solvePotential e).1, some err, (solvePotential e).2.2) :=
    Prod.ext rfl (Prod.ext h rfl)
  unfold update
  rw [hsp]

theorem C5_witness :
    update ePlus = ((solvePotential ePlus).1, some gsErr)
    ∧ (solvePotential ePlus).1.electric_field = ePlus.electric_field
    ∧ (solvePotential ePlus).1.charge_density = ePlus.charge_density :=
  C5_error_aborts_field_solve ePlus gsErr solve_ePlus_spec.1

/-- C6: `solve_potential` never modifies any boundary cell of the potential
grid, and never modifies `charge_density`, `electric_field`, `cell_vol`,
`size`, `cells`, `delta` or `delta_inv_sq`: only interior potential nodes are
written by the relaxation step. -/
theorem C6_solver_frame (e : Electrostatic) (hWF : e.potentialWF) :
    ((solvePotential e).1.size = e.size
      ∧ (solvePotential e).1.cells = e.cells
      ∧ (solvePotential e).1.delta = e.delta
      ∧ (solvePotential e).1.delta_inv_sq = e.delta_inv_sq
      ∧ (solvePotential e).1.charge_density = e.charge_density
      ∧ (solvePotential e).1.electric_field = e.electric_field
      ∧ (solvePotential e).1.cell_vol = e.cell_vol)
    ∧ ∀ i j k : ℕ, i < e.cells.x → j < e.cells.y → k < e.cells.z →
        (i = 0 ∨ i = e.cells.x - 1 ∨ j = 0 ∨ j = e.cells.y - 1
          ∨ k = 0 ∨ k = e.cells.z - 1) →
        (solvePotential e).1.potential.get i j k = e.potential.get i j k := by
  have hf := loopAux_sameFrame (GS_MAX_ITER + 1) e 0 (fMAX ^ 2) 0
  refine ⟨⟨hf.1, hf.2.1, hf.2.2.1, hf.2.2.2.2.2.2.1, hf.2.2.2.1, hf.2.2.2.2.1,
    hf.2.2.2.2.2.1⟩, ?_⟩
  intro i j k hi hj hk hb
  exact loopAux_boundary_get (GS_MAX_ITER + 1) e 0 (fMAX ^ 2) 0 hWF i j k
    (inBox_mk hi hj hk) hb

theorem C6_witness :
    ePlus.potentialWF
    ∧ (solvePotential ePlus).1.potential.get 0 0 0 = ePlus.potential.get 0 0 0
    ∧ (solvePotential ePlus).1.charge_density = ePlus.charge_density :=
  ⟨by decide,
    (C6_solver_frame ePlus (by decide)).2 0 0 0 (by decide) (by decide) (by decide)
      (Or.inl rfl),
    (C6_solver_frame ePlus (by decide)).1.2.2.2.2.1⟩

/-- C7: for every engine with ≥ 3 cells per axis, positive physical sizes,
and charge density and potential zero at every cell, `update` succeeds and
afterwards the potential is 0 at every cell (the trivial steady state). -/
theorem C7_trivial_steady_state (e : Electrostatic)
    (_hx : 3 ≤ e.cells.x) (_hy : 3 ≤ e.cells.y) (_hz : 3 ≤ e.cells.z)
    (_hsx : 0 < e.size.x) (_hsy : 0 < e.size.y) (_hsz : 0 < e.size.z)
    (hρ : ∀ q ∈ e.charge_density.data, q = 0)
    (hpot : ∀ q ∈ e.potential.data, q = 0) :
    (update e).2 = none ∧ ∀ q ∈ (update e).1.potential.data, q = 0 := by
  rw [update_zero hρ hpot]
  exact ⟨rfl, hpot⟩

theorem C7_witness :
    (update eZero).2 = none ∧ ∀ q ∈ (update eZero).1.potential.data, q = 0 :=
  C7_trivial_steady_state eZero (by decide) (by decide) (by decide)
    (by norm_num [eZero]) (by norm_num [eZero]) (by norm_num [eZero])
    (by decide) (by decide)

/-- C8 (amended): `Electrostatic::new` never returns `Err` — every
sub-construction is unconditionally `Ok`, so degenerate cell counts are not
rejected: a zero count makes the `cells - 1` subtraction underflow `usize`
(a panic, modelled as `none`), and any nonzero counts (a count of one
included, despite its division by zero in the spacing) produce `Ok`. -/
theorem C8_construction (size : ℚ × ℚ × ℚ) (cells : ℕ × ℕ × ℕ) :
    (∀ r : Unit, elecNew size cells ≠ some (.error r))
    ∧ (elecNew size cells = none ↔ cells.1 = 0 ∨ cells.2.1 = 0 ∨ cells.2.2 = 0)
    ∧ (¬ (cells.1 = 0 ∨ cells.2.1 = 0 ∨ cells.2.2 = 0) →
        ∃ e : Electrostatic, elecNew size cells = some (.ok e)) :=
  ⟨elecNew_never_err size cells, elecNew_none_iff size cells,
    elecNew_ok_of_nonzero size cells⟩

theorem C8_witness :
    elecNew (1, 1, 1) (3, 3, 3) ≠ some (.error ())
    ∧ ∃ e : Electrostatic, elecNew (1, 1, 1) (3, 3, 3) = some (.ok e) :=
  ⟨(C8_construction (1, 1, 1) (3, 3, 3)).1 (),
    (C8_construction (1, 1, 1) (3, 3, 3)).2.2 (by decide)⟩

/-- C8 counterexample: the degenerate cell count (1, 3, 3) — one cell along
x — is not rejected: the constructor returns `Ok`, not `Err`. -/
theorem C8_counterexample :
    (∃ e : Electrostatic, elecNew (1, 1, 1) (1, 3, 3) = some (.ok e))
    ∧ ∀ r : Unit, elecNew (1, 1, 1) (1, 3, 3) ≠ some (.error r) :=
  ⟨elecNew_ok_of_nonzero (1, 1, 1) (1, 3, 3) (by decide),
    elecNew_never_err (1, 1, 1) (1, 3, 3)⟩

/-- C9: the Display implementation of a vector field prints, for cell
(0, 0, 1) of the concrete field `vBug`, the line
`VectorField(0, 0, 1) = [0, 0, 1]`, whose bracketed z value 1 is the z grid
read at the transposed index (0, 1, 0) — whereas the z component grid at the
same index (0, 0, 1) holds 2, so the specified line (same-index triplet)
would be `VectorField(0, 0, 1) = [0, 0, 2]`.  The source's `self.z[(i, k, j)]`
contradicts the documented same-index format: a code bug. -/
theorem C9_display_z_transposed :
    (VectorField.displayLines vBug).getD 1 "" = "VectorField(0, 0, 1) = [0, 0, 1]"
    ∧ vBug.z.get 0 0 1 = 2
    ∧ (s!"VectorField(0, 0, 1) = [{vBug.x.get 0 0 1}, {vBug.y.get 0 0 1}, {vBug.z.get 0 0 1}]"
        = "VectorField(0, 0, 1) = [0, 0, 2]")
    ∧ ("VectorField(0, 0, 1) = [0, 0, 1]" : String) ≠ "VectorField(0, 0, 1) = [0, 0, 2]" :=
  ⟨by decide, by decide, by decide, by decide⟩

/-- C10: each grid-grid compound assignment (+=, -=, *=, /=) pairs elements
by linear buffer position: it writes the pointwise result into exactly the
first `min (length a) (length b)` positions of a's buffer, leaves every
remaining element of a unchanged, keeps a's length and shape metadata, and
(being a total function of the two buffers) never reads out of bounds. -/
theorem C10_compound_assign_zip (a b : ScalarField) :
    (((a.addAssign b).cells = a.cells ∧ (a.addAssign b).r_offset = a.r_offset
        ∧ (a.addAssign b).p_offset = a.p_offset
        ∧ (a.addAssign b).data.length = a.data.length)
      ∧ (∀ n : ℕ, n < min a.data.length b.data.length →
          (a.addAssign b).data.getD n 0 = a.data.getD n 0 + b.data.getD n 0)
      ∧ (∀ n : ℕ, min a.data.length b.data.length ≤ n →
          (a.addAssign b).data.getD n 0 = a.data.getD n 0))
    ∧ (((a.subAssign b).cells = a.cells ∧ (a.subAssign b).r_offset = a.r_offset
        ∧ (a.subAssign b).p_offset = a.p_offset
        ∧ (a.subAssign b).data.length = a.data.length)
      ∧ (∀ n : ℕ, n < min a.data.length b.data.length →
          (a.subAssign b).data.getD n 0 = a.data.getD n 0 - b.data.getD n 0)
      ∧ (∀ n : ℕ, min a.data.length b.data.length ≤ n →
          (a.subAssign b).data.getD n 0 = a.data.getD n 0))
    ∧ (((a.mulAssign b).cells = a.cells ∧ (a.mulAssign b).r_offset = a.r_offset
        ∧ (a.mulAssign b).p_offset = a.p_offset
        ∧ (a.mulAssign b).data.length = a.data.length)
      ∧ (∀ n : ℕ, n < min a.data.length b.data.length →
          (a.mulAssign b).data.getD n 0 = a.data.getD n 0 * b.data.getD n 0)
      ∧ (∀ n : ℕ, min a.data.length b.data.length ≤ n →
          (a.mulAssign b).data.getD n 0 = a.data.getD n 0))
    ∧ (((a.divAssign b).cells = a.cells ∧ (a.divAssign b).r_offset = a.r_offset
        ∧ (a.divAssign b).p_offset = a.p_offset
        ∧ (a.divAssign b).data.length = a.data.length)
      ∧ (∀ n : ℕ, n < min a.data.length b.data.length →
          (a.divAssign b).data.getD n 0 = a.data.getD n 0 / b.data.getD n 0)
      ∧ (∀ n : ℕ, min a.data.length b.data.length ≤ n →
          (a.divAssign b).data.getD n 0 = a.data.getD n 0)) :=
  ⟨⟨⟨rfl, rfl, rfl, zipApp_length _ _ _⟩,
      fun _ h => zipApp_getD_lt _ _ _ h, fun _ h => zipApp_getD_ge _ _ _ h⟩,
    ⟨⟨rfl, rfl, rfl, zipApp_length _ _ _⟩,
      fun _ h => zipApp_getD_lt _ _ _ h, fun _ h => zipApp_getD_ge _ _ _ h⟩,
    ⟨⟨rfl, rfl, rfl, zipApp_length _ _ _⟩,
      fun _ h => zipApp_getD_lt _ _ _ h, fun _ h => zipApp_getD_ge _ _ _ h⟩,
    ⟨⟨rfl, rfl, rfl, zipApp_length _ _ _⟩,
      fun _ h => zipApp_getD_lt _ _ _ h, fun _ h => zipApp_getD_ge _ _ _ h⟩⟩

theorem C10_witness :
    (sfA.addAssign sfB).data.getD 0 0 = sfA.data.getD 0 0 + sfB.data.getD 0 0
    ∧ (sfA.addAssign sfB).data.getD 2 0 = sfA.data.getD 2 0
    ∧ (sfA.divAssign sfB).data.getD 1 0 = sfA.data.getD 1 0 / sfB.data.getD 1 0 :=
  ⟨(C10_compound_assign_zip sfA sfB).1.2.1 0 (by decide),
    (C10_compound_assign_zip sfA sfB).1.2.2 2 (by decide),
    (C10_compound_assign_zip sfA sfB).2.2.2.2.1 1 (by decide)⟩

end Picrs
